import Mathlib

/-!
Verification of the Dijkstra step-tracer (`dijkstra_with_steps`) and the
summary-table logic of the animation player from `Dijkastras_Algorithm.py`.

The Python code is embedded shallowly:
* vertices are `Nat`, weights are `Int`;
* the `distances` dict is an association list `List (V × Dist)` where
  `Dist.inf` models `float('infinity')`;
* the `heapq` priority queue of `(distance, vertex)` tuples is modelled as a
  list kept sorted in the lexicographic tuple order (`heappush` = ordered
  insert, `heappop` = head), which reproduces the observable behaviour of a
  binary min-heap exactly: every pop returns the lexicographically least
  tuple, so ties on equal distance are broken by ascending vertex id;
* a `KeyError` raised by `graph[current_node]` or `distances[neighbor]`
  aborts the run; the function therefore returns
  `Except Err (DT × List Event)`.  `Err.invalidInput` is the error kind the
  specification talks about; the code itself never produces it.
* the `while` loop is given explicit fuel; `initFuel` is provably enough
  for every input (each iteration pops one queue entry, and at most
  `1 + Σ (deg v + 1)` entries are ever pushed).
-/

namespace DijkstraTrace

abbrev V := Nat

/-- `float('infinity')` sentinel or a finite distance value. -/
inductive Dist where
  | fin : Int → Dist
  | inf : Dist
deriving DecidableEq, Repr

/-- Order on distance values: `fin` below `inf`, mirroring Python `<` with
`float('infinity')`. -/
def DLt : Dist → Dist → Prop
  | Dist.fin m, Dist.fin n => m < n
  | Dist.fin _, Dist.inf => True
  | Dist.inf, _ => False

def DLe : Dist → Dist → Prop
  | Dist.fin m, Dist.fin n => m ≤ n
  | Dist.fin _, Dist.inf => True
  | Dist.inf, Dist.fin _ => False
  | Dist.inf, Dist.inf => True

instance : ∀ a b : Dist, Decidable (DLt a b) := fun a b => by
  cases a <;> cases b <;> simp only [DLt] <;> infer_instance

instance : ∀ a b : Dist, Decidable (DLe a b) := fun a b => by
  cases a <;> cases b <;> simp only [DLe] <;> infer_instance

theorem DLe.refl (a : Dist) : DLe a a := by cases a <;> simp [DLe]

theorem DLe.trans {a b c : Dist} (h1 : DLe a b) (h2 : DLe b c) : DLe a c := by
  cases a <;> cases b <;> cases c <;> simp_all [DLe] <;> omega

theorem DLt.trans_DLe {a b c : Dist} (h1 : DLt a b) (h2 : DLe b c) : DLt a c := by
  cases a <;> cases b <;> cases c <;> simp_all [DLt, DLe] <;> omega

theorem DLe_of_DLt {a b : Dist} (h : DLt a b) : DLe a b := by
  cases a <;> cases b <;> simp_all [DLt, DLe] <;> omega

/-- One entry of `animation_steps`: the dict literal built at lines 62–67 and
78–83 of the source (`visited_node`, `visited_path`, `distances` snapshot,
`visited_nodes_set` snapshot).  The visited set is recorded as a list in
insertion order; the Python `set` is value-equal to it. -/
structure Event where
  visited_node : V
  visited_path : Option (V × V)
  distances : List (V × Dist)
  visited_nodes_set : List V
deriving DecidableEq, Repr

/-- The adjacency-list graph: a dict from vertex to a list of
`(neighbor, weight)` pairs. -/
structure Graph where
  adj : List (V × List (V × Int))
deriving DecidableEq, Repr

/-- Dict lookup: first binding of the key, `none` when absent (Python
`KeyError`). -/
def lookupA {α : Type} : List (V × α) → V → Option α
  | [], _ => none
  | (k, a) :: rest, v => if k = v then some a else lookupA rest v

/-- Dict assignment `m[k] = a`: replace the binding in place, append when the
key is new (as `distances[start_node] = 0` does for an absent start). -/
def updateD {α : Type} : List (V × α) → V → α → List (V × α)
  | [], k, a => [(k, a)]
  | (k', a') :: rest, k, a =>
    if k' = k then (k, a) :: rest else (k', a') :: updateD rest k a

def Graph.keys (g : Graph) : List V := g.adj.map Prod.fst

def Graph.find (g : Graph) (v : V) : Option (List (V × Int)) := lookupA g.adj v

/-- Adjacency list of a vertex, `[]` for an unknown vertex (only used in the
specification-side path predicates; the executable code keeps the
`KeyError`). -/
def adjOf (g : Graph) (v : V) : List (V × Int) := (g.find v).getD []

abbrev DT := List (V × Dist)
abbrev PQ := List (Int × V)

/-- Lexicographic order on `(distance, vertex)` tuples, exactly Python's
tuple comparison used by `heapq`. -/
def pqLe (a b : Int × V) : Prop := a.1 < b.1 ∨ (a.1 = b.1 ∧ a.2 ≤ b.2)

instance : ∀ a b : Int × V, Decidable (pqLe a b) := fun a b =>
  inferInstanceAs (Decidable (a.1 < b.1 ∨ (a.1 = b.1 ∧ a.2 ≤ b.2)))

/-- `heapq.heappush`: insert keeping the queue sorted by tuple order. -/
def pqPush (x : Int × V) : PQ → PQ
  | [] => [x]
  | y :: ys => if pqLe x y then x :: y :: ys else y :: pqPush x ys

inductive Err where
  | keyError
  | invalidInput
  | fuel
deriving DecidableEq, Repr

/-- The inner `for neighbor, weight in graph[current_node]` loop
(lines 70–84): skip settled neighbors, relax improving edges, push the new
tentative distance and append a relaxation event. -/
def relaxAll (v : V) (d : Int) :
    List (V × Int) → List V → DT → PQ → List Event → Except Err (DT × PQ × List Event)
  | [], _, dist, pq, steps => Except.ok (dist, pq, steps)
  | (nb, w) :: more, visited, dist, pq, steps =>
    if nb ∈ visited then relaxAll v d more visited dist pq steps
    else
      match lookupA dist nb with
      | none => Except.error Err.keyError
      | some dn =>
        if DLt (Dist.fin (d + w)) dn then
          relaxAll v d more visited (updateD dist nb (Dist.fin (d + w)))
            (pqPush (d + w, nb) pq)
            (steps ++ [⟨v, some (v, nb), updateD dist nb (Dist.fin (d + w)), visited⟩])
        else relaxAll v d more visited dist pq steps

/-- The `while priority_queue:` loop (lines 53–84), with explicit fuel.
Pops the head (= `heappop`), discards stale entries, otherwise settles the
vertex, records the settlement event and relaxes its edges. -/
def loopF : Nat → Graph → PQ → List V → DT → List Event → Except Err (DT × List Event)
  | 0, _, _, _, _, _ => Except.error Err.fuel
  | fuel + 1, g, pq, visited, dist, steps =>
    match pq with
    | [] => Except.ok (dist, steps)
    | (d, v) :: rest =>
      if v ∈ visited then loopF fuel g rest visited dist steps
      else
        match g.find v with
        | none => Except.error Err.keyError
        | some adj =>
          match relaxAll v d adj (visited ++ [v]) dist rest
              (steps ++ [⟨v, none, dist, visited ++ [v]⟩]) with
          | Except.error e => Except.error e
          | Except.ok (dist', pq', steps') => loopF fuel g pq' (visited ++ [v]) dist' steps'

/-- Work still chargeable to unvisited dict entries: pops of stale entries
cost one queue element each, and settling a vertex can push at most its
degree of new entries. -/
def unvisitedWork (g : Graph) (visited : List V) : Nat :=
  ((g.adj.filter (fun p => decide (p.1 ∉ visited))).map (fun p => p.2.length + 1)).sum

def loopMeasure (g : Graph) (pq : PQ) (visited : List V) : Nat :=
  pq.length + unvisitedWork g visited

def initFuel (g : Graph) : Nat := 2 + unvisitedWork g []

/-- `{node: float('infinity') for node in graph}` followed by
`distances[start_node] = 0`. -/
def initDist (g : Graph) (s : V) : DT :=
  updateD (g.adj.map (fun p => (p.1, Dist.inf))) s (Dist.fin 0)

/-- The tracer `dijkstra_with_steps(graph, start_node)` (lines 41–86):
final distances together with the recorded event log, or the error the
Python run would raise. -/
def dijkstra_with_steps (g : Graph) (s : V) : Except Err (DT × List Event) :=
  loopF (initFuel g) g [(0, s)] [] (initDist g s) []

/-! Player-side definitions (`animate_dijkstra`, lines 89–173). -/

/-- Line 155: `str(distance) if distance != float('infinity') else "infinity"`. -/
def distStr : Dist → String
  | Dist.fin n => toString n
  | Dist.inf => "infinity"

def keyLe (a b : V × Dist) : Prop := a.1 ≤ b.1

instance : ∀ a b : V × Dist, Decidable (keyLe a b) := fun a b =>
  inferInstanceAs (Decidable (a.1 ≤ b.1))

instance : IsTotal (V × Dist) keyLe := ⟨fun a b => Nat.le_total a.1 b.1⟩

instance : IsTrans (V × Dist) keyLe := ⟨fun _ _ _ h1 h2 => Nat.le_trans h1 h2⟩

/-- The final summary table (lines 153–156): `sorted(final_distances.items())`
rendered as `[vertex, distance_str]` rows.  Python sorts the `(vertex, value)`
tuples; with the distinct keys of a dict this is a sort on the vertex id. -/
def summaryTable (final : DT) : List (V × String) :=
  (List.insertionSort keyLe final).map (fun p => (p.1, distStr p.2))

/-- Line 166: `is_final_frame = frame_index == len(animation_steps) - 1`,
computed in `Int` as Python does. -/
def isFinalFrame (steps : List Event) (i : Nat) : Bool :=
  (i : Int) == (steps.length : Int) - 1

/-- The frame actually draws (line 167 guard) and, inside `draw_graph`, the
table is added exactly when `is_final_frame` (line 152). -/
def rendersTable (steps : List Event) (i : Nat) : Bool :=
  decide (i < steps.length) && isFinalFrame steps i

/-! Specification-side path predicates. -/

/-- A walk in the graph from `u` to `x` of total weight `c`, following
adjacency-list edges. -/
inductive Walk (g : Graph) : V → V → Int → Prop
  | nil (v : V) : Walk g v v 0
  | cons {u v x : V} {w c : Int} :
      (v, w) ∈ adjOf g u → Walk g v x c → Walk g u x (w + c)

def Reachable (g : Graph) (s v : V) : Prop := ∃ c, Walk g s v c

/-- `d` is the true single-source shortest-path distance from `s` to `v`. -/
def IsShortest (g : Graph) (s v : V) (d : Int) : Prop :=
  Walk g s v d ∧ ∀ c, Walk g s v c → d ≤ c

/-- Well-formed graph: distinct dict keys and adjacency targets that are
themselves vertices of the dict (the sample graph satisfies both). -/
def WFG (g : Graph) : Prop :=
  g.keys.Nodup ∧ ∀ p ∈ g.adj, ∀ q ∈ p.2, q.1 ∈ g.keys

/-- All edge weights are non-negative. -/
def NonNegG (g : Graph) : Prop := ∀ p ∈ g.adj, ∀ q ∈ p.2, 0 ≤ q.2

instance (g : Graph) : Decidable (WFG g) := by unfold WFG; infer_instance

instance (g : Graph) : Decidable (NonNegG g) := by unfold NonNegG; infer_instance

/-! Basic lemmas about the dictionary model. -/

theorem lookupA_eq_none_iff {α : Type} (m : List (V × α)) (k : V) :
    lookupA m k = none ↔ k ∉ m.map Prod.fst := by
  induction m with
  | nil => simp [lookupA]
  | cons p rest ih =>
    obtain ⟨k', a⟩ := p
    by_cases h : k' = k
    · subst h
      simp [lookupA]
    · simp only [lookupA, if_neg h, List.map_cons, List.mem_cons, ih]
      constructor
      · intro hk hor
        rcases hor with hor | hor
        · exact h hor.symm
        · exact hk hor
      · intro hk hmem
        exact hk (Or.inr hmem)

theorem lookupA_isSome_of_mem {α : Type} {m : List (V × α)} {k : V}
    (h : k ∈ m.map Prod.fst) : ∃ a, lookupA m k = some a := by
  cases hl : lookupA m k with
  | none => exact absurd h ((lookupA_eq_none_iff m k).mp hl)
  | some a => exact ⟨a, rfl⟩

theorem mem_keys_of_lookupA {α : Type} {m : List (V × α)} {k : V} {a : α}
    (h : lookupA m k = some a) : k ∈ m.map Prod.fst := by
  by_contra hk
  rw [(lookupA_eq_none_iff m k).mpr hk] at h
  exact Option.noConfusion h

theorem mem_of_lookupA {α : Type} {m : List (V × α)} {k : V} {a : α}
    (h : lookupA m k = some a) : (k, a) ∈ m := by
  induction m with
  | nil => exact absurd h (by simp [lookupA])
  | cons p rest ih =>
    obtain ⟨k', a'⟩ := p
    by_cases hk : k' = k
    · subst hk
      rw [lookupA, if_pos rfl] at h
      cases h
      exact List.mem_cons_self _ _
    · rw [lookupA, if_neg hk] at h
      exact List.mem_cons_of_mem _ (ih h)

theorem lookupA_updateD_self {α : Type} (m : List (V × α)) (k : V) (a : α) :
    lookupA (updateD m k a) k = some a := by
  induction m with
  | nil => simp [updateD, lookupA]
  | cons p rest ih =>
    obtain ⟨k', a'⟩ := p
    by_cases h : k' = k <;> simp [updateD, lookupA, h, ih]

theorem lookupA_updateD_ne {α : Type} (m : List (V × α)) {k k' : V} (a : α)
    (h : k' ≠ k) : lookupA (updateD m k a) k' = lookupA m k' := by
  have hne : k ≠ k' := fun hh => h hh.symm
  induction m with
  | nil => simp [updateD, lookupA, if_neg hne]
  | cons p rest ih =>
    obtain ⟨k'', a''⟩ := p
    by_cases hk : k'' = k
    · subst hk
      rw [updateD, if_pos rfl, lookupA, lookupA, if_neg hne, if_neg hne]
    · rw [updateD, if_neg hk, lookupA, lookupA]
      by_cases hk' : k'' = k'
      · rw [if_pos hk', if_pos hk']
      · rw [if_neg hk', if_neg hk', ih]

theorem map_fst_updateD {α : Type} {m : List (V × α)} {k : V} (a : α)
    (h : k ∈ m.map Prod.fst) : (updateD m k a).map Prod.fst = m.map Prod.fst := by
  induction m with
  | nil => simp at h
  | cons p rest ih =>
    obtain ⟨k', a'⟩ := p
    by_cases hk : k' = k
    · subst hk; simp [updateD]
    · simp only [List.map_cons, List.mem_cons] at h
      rcases h with h | h

      · exact absurd h.symm hk
      · simp [updateD, hk, ih h]

/-! Basic lemmas about the priority-queue model. -/

theorem pqLe_total (x y : Int × V) : pqLe x y ∨ pqLe y x := by
  obtain ⟨x1, x2⟩ := x
  obtain ⟨y1, y2⟩ := y
  show (x1 < y1 ∨ (x1 = y1 ∧ x2 ≤ y2)) ∨ (y1 < x1 ∨ (y1 = x1 ∧ y2 ≤ x2))
  rcases Int.lt_trichotomy x1 y1 with h | h | h
  · exact Or.inl (Or.inl h)
  · rcases Nat.le_total x2 y2 with h2 | h2
    · exact Or.inl (Or.inr ⟨h, h2⟩)
    · exact Or.inr (Or.inr ⟨h.symm, h2⟩)
  · exact Or.inr (Or.inl h)

theorem pqLe_of_not_pqLe {x y : Int × V} (h : ¬ pqLe x y) : pqLe y x :=
  (pqLe_total x y).resolve_left h

theorem pqLe_trans {x y z : Int × V} (h1 : pqLe x y) (h2 : pqLe y z) : pqLe x z := by
  obtain ⟨x1, x2⟩ := x
  obtain ⟨y1, y2⟩ := y
  obtain ⟨z1, z2⟩ := z
  have g1 : x1 < y1 ∨ (x1 = y1 ∧ x2 ≤ y2) := h1
  have g2 : y1 < z1 ∨ (y1 = z1 ∧ y2 ≤ z2) := h2
  show x1 < z1 ∨ (x1 = z1 ∧ x2 ≤ z2)
  rcases g1 with g1 | ⟨e1, l1⟩
  · rcases g2 with g2 | ⟨e2, _⟩
    · exact Or.inl (Int.lt_trans g1 g2)
    · exact Or.inl (e2 ▸ g1)
  · rcases g2 with g2 | ⟨e2, l2⟩
    · exact Or.inl (e1 ▸ g2)
    · exact Or.inr ⟨e1.trans e2, Nat.le_trans l1 l2⟩

theorem mem_pqPush {x y : Int × V} : ∀ {pq : PQ}, x ∈ pqPush y pq ↔ x = y ∨ x ∈ pq := by
  intro pq
  induction pq with
  | nil => simp [pqPush]
  | cons z zs ih =>
    by_cases h : pqLe y z
    · simp [pqPush, h]
    · simp only [pqPush, if_neg h, List.mem_cons, ih]
      tauto

theorem pqPush_length (y : Int × V) : ∀ pq : PQ, (pqPush y pq).length = pq.length + 1 := by
  intro pq
  induction pq with
  | nil => rfl
  | cons z zs ih =>
    by_cases h : pqLe y z <;> simp [pqPush, h, ih]

theorem pairwise_pqPush (x : Int × V) :
    ∀ {pq : PQ}, List.Pairwise pqLe pq → List.Pairwise pqLe (pqPush x pq) := by
  intro pq h
  induction pq with
  | nil => simp [pqPush]
  | cons y ys ih =>
    rw [List.pairwise_cons] at h
    by_cases hxy : pqLe x y
    · rw [pqPush, if_pos hxy, List.pairwise_cons]
      refine ⟨?_, List.pairwise_cons.mpr h⟩
      intro z hz
      rcases List.mem_cons.mp hz with rfl | hz
      · exact hxy
      · exact pqLe_trans hxy (h.1 z hz)
    · rw [pqPush, if_neg hxy, List.pairwise_cons]
      refine ⟨?_, ih h.2⟩
      intro z hz
      rcases mem_pqPush.mp hz with rfl | hz
      · exact pqLe_of_not_pqLe hxy
      · exact h.1 z hz

theorem pairwise_head_min {d : Int} {v : V} {rest : PQ}
    (h : List.Pairwise pqLe ((d, v) :: rest)) :
    ∀ x ∈ rest, pqLe (d, v) x :=
  (List.pairwise_cons.mp h).1

/-! Basic lemmas about walks. -/

theorem mem_adjOf {g : Graph} {u : V} {q : V × Int} (h : q ∈ adjOf g u) :
    ∃ adj, (u, adj) ∈ g.adj ∧ q ∈ adj := by
  unfold adjOf Graph.find at h
  cases hf : lookupA g.adj u with
  | none => rw [hf] at h; simp at h
  | some adj =>
    rw [hf] at h
    exact ⟨adj, mem_of_lookupA hf, h⟩

theorem adjOf_closed {g : Graph} (hwf : WFG g) {u : V} {q : V × Int}
    (h : q ∈ adjOf g u) : q.1 ∈ g.keys := by
  obtain ⟨adj, hmem, hq⟩ := mem_adjOf h
  exact hwf.2 (u, adj) hmem q hq

theorem weight_nonneg {g : Graph} (hnn : NonNegG g) {u : V} {q : V × Int}
    (h : q ∈ adjOf g u) : 0 ≤ q.2 := by
  obtain ⟨adj, hmem, hq⟩ := mem_adjOf h
  exact hnn (u, adj) hmem q hq

theorem walk_snoc {g : Graph} {s v : V} {c : Int} (h : Walk g s v c)
    {nb : V} {w : Int} (he : (nb, w) ∈ adjOf g v) : Walk g s nb (c + w) := by
  induction h with
  | nil u => simpa using Walk.cons he (Walk.nil nb)
  | cons he' _ ih =>
    have := Walk.cons he' (ih he)
    convert this using 1
    ring

theorem walk_nonneg {g : Graph} (hnn : NonNegG g) {u v : V} {c : Int}
    (h : Walk g u v c) : 0 ≤ c := by
  induction h with
  | nil => omega
  | cons he _ ih =>
    have := weight_nonneg hnn he
    omega

theorem walk_mem_keys {g : Graph} (hwf : WFG g) {s v : V} {c : Int}
    (hs : s ∈ g.keys) (h : Walk g s v c) : v ∈ g.keys := by
  induction h with
  | nil => exact hs
  | cons he _ ih => exact ih (adjOf_closed hwf he)

/-! Nonempty prefixes of a list, in increasing length order: the shape of the
visited-set snapshots of the settlement events. -/

def prefixes (l : List V) : List (List V) :=
  (List.range l.length).map (fun i => l.take (i + 1))

theorem prefixes_nil : prefixes [] = [] := rfl

theorem prefixes_append (l : List V) (x : V) :
    prefixes (l ++ [x]) = prefixes l ++ [l ++ [x]] := by
  unfold prefixes
  rw [List.length_append, List.length_singleton, List.range_succ, List.map_append]
  congr 1
  · apply List.map_congr_left
    intro i hi
    rw [List.mem_range] at hi
    rw [List.take_append_of_le_length (by omega)]
  · simp

theorem prefixes_length (l : List V) : (prefixes l).length = l.length := by
  simp [prefixes]

theorem prefixes_getElem (l : List V) (i : Nat) (h : i < (prefixes l).length) :
    (prefixes l)[i] = l.take (i + 1) := by
  simp [prefixes]

/-! Concrete graphs used as witnesses: the module-level sample graph of the
source file, the four-vertex graph of the specification's concrete scenario,
and a two-vertex graph with a negative edge. -/

def pyGraph : Graph :=
  ⟨[(0, [(1, 6), (2, 1)]), (1, [(0, 6), (3, 1), (5, 8)]), (2, [(0, 1), (4, 3)]),
    (3, [(1, 1), (5, 5)]), (4, [(2, 3), (5, 4), (7, 3)]),
    (5, [(1, 8), (3, 5), (4, 4), (6, 5)]), (6, [(5, 5), (7, 4)]),
    (7, [(4, 3), (6, 4)])]⟩

def specG : Graph :=
  ⟨[(0, [(1, 6), (2, 1)]), (1, [(0, 6), (3, 1)]), (2, [(0, 1), (3, 10)]), (3, [])]⟩

def negG : Graph := ⟨[(0, [(1, -5)]), (1, [])]⟩

/-! ### Steps of the event log are append-only -/

theorem relaxAll_steps_grow {v : V} {d : Int} :
    ∀ {adj : List (V × Int)} {visited : List V} {dist : DT} {pq : PQ} {steps : List Event}
      {dist' : DT} {pq' : PQ} {steps' : List Event},
      relaxAll v d adj visited dist pq steps = Except.ok (dist', pq', steps') →
      steps <+: steps' := by
  intro adj
  induction adj with
  | nil =>
    intro visited dist pq steps dist' pq' steps' h
    rw [relaxAll] at h
    cases h
    exact List.prefix_refl _
  | cons q more ih =>
    intro visited dist pq steps dist' pq' steps' h
    obtain ⟨nb, w⟩ := q
    rw [relaxAll] at h
    by_cases hnb : nb ∈ visited
    · rw [if_pos hnb] at h
      exact ih h
    · rw [if_neg hnb] at h
      cases hl : lookupA dist nb with
      | none => simp only [hl] at h; cases h
      | some dn =>
        simp only [hl] at h
        by_cases hlt : DLt (Dist.fin (d + w)) dn
        · rw [if_pos hlt] at h
          exact List.IsPrefix.trans ⟨_, rfl⟩ (ih h)
        · rw [if_neg hlt] at h
          exact ih h

/-- Claim C7.  Every event snapshot is a value captured at event-creation
time: once an event has been appended to the log, the rest of the run only
appends further events, so the content of the already-recorded events in the
returned log is identical to what was recorded (later mutation of the live
`distances`/`visited_nodes` never alters a recorded event). -/
theorem c7_snapshots_are_value_copies :
    ∀ (fuel : Nat) (g : Graph) (pq : PQ) (visited : List V) (dist : DT)
      (steps : List Event) (dF : DT) (sF : List Event),
      loopF fuel g pq visited dist steps = Except.ok (dF, sF) → steps <+: sF := by
  intro fuel
  induction fuel with
  | zero => intro g pq visited dist steps dF sF h; cases h
  | succ n ih =>
    intro g pq visited dist steps dF sF h
    match pq with
    | [] =>
      rw [loopF] at h
      cases h
      exact List.prefix_refl _
    | (d, v) :: rest =>
      rw [loopF] at h
      by_cases hv : v ∈ visited
      · rw [if_pos hv] at h
        exact ih g rest visited dist steps dF sF h
      · rw [if_neg hv] at h
        cases hfind : g.find v with
        | none => simp only [hfind] at h; cases h
        | some adj =>
          simp only [hfind] at h
          cases hrel : relaxAll v d adj (visited ++ [v]) dist rest
              (steps ++ [⟨v, none, dist, visited ++ [v]⟩]) with
          | error e => simp only [hrel] at h; cases h
          | ok r =>
            obtain ⟨dist', pq', steps'⟩ := r
            simp only [hrel] at h
            have h1 : steps <+: steps ++ [(⟨v, none, dist, visited ++ [v]⟩ : Event)] := ⟨_, rfl⟩
            have h2 := relaxAll_steps_grow hrel
            exact h1.trans (h2.trans (ih g pq' (visited ++ [v]) dist' steps' dF sF h))

/-- Witness for C7 at a concrete run. -/
theorem c7_witness :
    loopF 3 negG [(0, 0)] [] (initDist negG 0) [] =
      Except.ok ([(0, Dist.fin 0), (1, Dist.fin (-5))],
        [⟨0, none, [(0, Dist.fin 0), (1, Dist.inf)], [0]⟩,
         ⟨0, some (0, 1), [(0, Dist.fin 0), (1, Dist.fin (-5))], [0]⟩,
         ⟨1, none, [(0, Dist.fin 0), (1, Dist.fin (-5))], [0, 1]⟩]) ∧
    ([] : List Event) <+:
      [⟨0, none, [(0, Dist.fin 0), (1, Dist.inf)], [0]⟩,
       ⟨0, some (0, 1), [(0, Dist.fin 0), (1, Dist.fin (-5))], [0]⟩,
       ⟨1, none, [(0, Dist.fin 0), (1, Dist.fin (-5))], [0, 1]⟩] :=
  ⟨rfl, c7_snapshots_are_value_copies 3 negG [(0, 0)] [] (initDist negG 0) [] _ _ rfl⟩

/-! ### Stale frontier entries are discarded without any effect -/

/-- Claim C4.  When the popped minimum entry names an already-visited vertex,
the loop simply continues on the remaining queue: the distance table, the
visited set and the event log are passed on unchanged and no event is
appended. -/
theorem c4_stale_entry_discarded (fuel : Nat) (g : Graph) (d : Int) (v : V)
    (rest : PQ) (visited : List V) (dist : DT) (steps : List Event)
    (h : v ∈ visited) :
    loopF (fuel + 1) g ((d, v) :: rest) visited dist steps =
      loopF fuel g rest visited dist steps := by
  rw [loopF, if_pos h]

/-- Witness for C4 at a concrete stale entry. -/
theorem c4_witness :
    (0 : V) ∈ [(0 : V)] ∧
    loopF 1 negG [(0, 0)] [0] [(0, Dist.fin 0)] [] =
      loopF 0 negG [] [0] [(0, Dist.fin 0)] [] :=
  ⟨by decide, c4_stale_entry_discarded 0 negG 0 0 [] [0] [(0, Dist.fin 0)] [] (by decide)⟩

/-! ### Determinism and the frontier tie-break -/

/-- Claim C8.  The tracer is a pure function: equal graph and start give
byte-for-byte identical results (final table and event sequence).  The
frontier model keeps `(distance, vertex)` tuples sorted in the lexicographic
`heapq` order: pushing preserves the order, and the popped head is minimal —
on equal distances the smaller vertex identifier wins. -/
theorem c8_deterministic :
    (∀ (g g' : Graph) (s s' : V), g = g' → s = s' →
        dijkstra_with_steps g s = dijkstra_with_steps g' s') ∧
    (∀ (x : Int × V) (pq : PQ), List.Pairwise pqLe pq → List.Pairwise pqLe (pqPush x pq)) ∧
    (∀ (d : Int) (v : V) (rest : PQ), List.Pairwise pqLe ((d, v) :: rest) →
        ∀ x ∈ rest, d < x.1 ∨ (d = x.1 ∧ v ≤ x.2)) := by
  refine ⟨?_, ?_, ?_⟩
  · rintro g g' s s' rfl rfl
    rfl
  · intro x pq h
    exact pairwise_pqPush x h
  · intro d v rest h x hx
    exact pairwise_head_min h x hx

/-- Witness for C8: a tie on distance `2` between vertices `1` and `4` is
broken towards the smaller vertex. -/
theorem c8_witness :
    dijkstra_with_steps specG 0 = dijkstra_with_steps specG 0 ∧
    List.Pairwise pqLe (pqPush (2, 4) [(2, 1), (3, 5)]) ∧
    ((2 : Int) < 2 ∨ ((2 : Int) = 2 ∧ (1 : V) ≤ 4)) :=
  ⟨c8_deterministic.1 specG specG 0 0 rfl rfl,
   c8_deterministic.2.1 (2, 4) [(2, 1), (3, 5)] (by decide),
   c8_deterministic.2.2 2 1 [(2, 4), (3, 5)] (by decide) (2, 4) (by decide)⟩

/-! ### Unknown start vertex: `KeyError`, not `InvalidInput` -/

/-- Counterexample to C3 as stated: on a graph with key set `[0]` and the
absent start vertex `1`, the tracer does not fail with `InvalidInput`; the
run aborts with the `KeyError` raised by `graph[current_node]`. -/
theorem c3_counterexample :
    (1 : V) ∉ (⟨[(0, [])]⟩ : Graph).keys ∧
    dijkstra_with_steps ⟨[(0, [])]⟩ 1 = Except.error Err.keyError ∧
    dijkstra_with_steps ⟨[(0, [])]⟩ 1 ≠ Except.error Err.invalidInput := by
  refine ⟨by decide, rfl, ?_⟩
  intro h
  have h2 : dijkstra_with_steps ⟨[(0, [])]⟩ 1 = Except.error Err.keyError := rfl
  rw [h2] at h
  cases h

/-- Claim C3, amended.  For every graph and every start vertex not in the
graph's key set, `dijkstra_with_steps` aborts with the `KeyError` of
`graph[current_node]` (not `InvalidInput`), and no event log is returned to
the caller. -/
theorem c3_amended_unknown_start (g : Graph) (s : V) (h : s ∉ g.keys) :
    dijkstra_with_steps g s = Except.error Err.keyError := by
  have hf : g.find s = none := (lookupA_eq_none_iff g.adj s).mpr h
  have h2 : initFuel g = (1 + unvisitedWork g []) + 1 := by unfold initFuel; omega
  unfold dijkstra_with_steps
  rw [h2, loopF, if_neg (List.not_mem_nil s), hf]

/-- Witness for the amended C3. -/
theorem c3_witness :
    (1 : V) ∉ (⟨[(0, [])]⟩ : Graph).keys ∧
    dijkstra_with_steps ⟨[(0, [])]⟩ 1 = Except.error Err.keyError :=
  ⟨by decide, c3_amended_unknown_start ⟨[(0, [])]⟩ 1 (by decide)⟩

/-! ### Negative weights are not rejected -/

/-- Counterexample to C2 as stated: `negG` has the negative edge
`(0, 1, -5)`, yet the tracer runs to completion and returns distances and an
event log instead of failing with `InvalidInput`. -/
theorem c2_counterexample :
    (1, (-5 : Int)) ∈ adjOf negG 0 ∧ (-5 : Int) < 0 ∧
    dijkstra_with_steps negG 0 =
      Except.ok ([(0, Dist.fin 0), (1, Dist.fin (-5))],
        [⟨0, none, [(0, Dist.fin 0), (1, Dist.inf)], [0]⟩,
         ⟨0, some (0, 1), [(0, Dist.fin 0), (1, Dist.fin (-5))], [0]⟩,
         ⟨1, none, [(0, Dist.fin 0), (1, Dist.fin (-5))], [0, 1]⟩]) :=
  ⟨by decide, by decide, rfl⟩

/-! ### Fuel adequacy: the loop always terminates within `initFuel` -/

theorem filter_unvisited_congr (l : List (V × List (V × Int))) (visited : List V)
    (v : V) (hl : v ∉ l.map Prod.fst) :
    l.filter (fun p => decide (p.1 ∉ visited ++ [v])) =
      l.filter (fun p => decide (p.1 ∉ visited)) := by
  apply List.filter_congr
  intro p hp
  have hpv : p.1 ≠ v := by
    intro he
    exact hl (he ▸ List.mem_map_of_mem Prod.fst hp)
  have : p.1 ∈ visited ++ [v] ↔ p.1 ∈ visited := by
    simp [List.mem_append, hpv]
  simp [this]

theorem work_aux (v : V) (adj : List (V × Int)) (visited : List V) :
    ∀ l : List (V × List (V × Int)), (l.map Prod.fst).Nodup → v ∉ visited →
      lookupA l v = some adj →
      ((l.filter (fun p => decide (p.1 ∉ visited))).map (fun p => p.2.length + 1)).sum =
        ((l.filter (fun p => decide (p.1 ∉ visited ++ [v]))).map
          (fun p => p.2.length + 1)).sum + (adj.length + 1) := by
  intro l
  induction l with
  | nil => intro _ _ h; cases h
  | cons p rest ih =>
    intro hnodup hv hfind
    obtain ⟨k, a⟩ := p
    rw [List.map_cons, List.nodup_cons] at hnodup
    by_cases hk : k = v
    · subst hk
      rw [lookupA, if_pos rfl] at hfind
      cases hfind
      have hrest := filter_unvisited_congr rest visited k hnodup.1
      have e1 : List.filter (fun p => decide (p.1 ∉ visited)) ((k, adj) :: rest) =
          (k, adj) :: List.filter (fun p => decide (p.1 ∉ visited)) rest := by
        simp [List.filter_cons, hv]
      have e2 : List.filter (fun p => decide (p.1 ∉ visited ++ [k])) ((k, adj) :: rest) =
          List.filter (fun p => decide (p.1 ∉ visited ++ [k])) rest := by
        simp [List.filter_cons]
      rw [e1, e2, hrest]
      simp only [List.map_cons, List.sum_cons]
      omega
    · rw [lookupA, if_neg hk] at hfind
      by_cases hkv : k ∈ visited
      · have e1 : List.filter (fun p => decide (p.1 ∉ visited)) ((k, a) :: rest) =
            List.filter (fun p => decide (p.1 ∉ visited)) rest := by
          simp [List.filter_cons, hkv]
        have e2 : List.filter (fun p => decide (p.1 ∉ visited ++ [v])) ((k, a) :: rest) =
            List.filter (fun p => decide (p.1 ∉ visited ++ [v])) rest := by
          simp [List.filter_cons, List.mem_append, hkv]
        rw [e1, e2]
        exact ih hnodup.2 hv hfind
      · have e1 : List.filter (fun p => decide (p.1 ∉ visited)) ((k, a) :: rest) =
            (k, a) :: List.filter (fun p => decide (p.1 ∉ visited)) rest := by
          simp [List.filter_cons, hkv]
        have e2 : List.filter (fun p => decide (p.1 ∉ visited ++ [v])) ((k, a) :: rest) =
            (k, a) :: List.filter (fun p => decide (p.1 ∉ visited ++ [v])) rest := by
          simp [List.filter_cons, List.mem_append, hkv, hk]
        rw [e1, e2]
        simp only [List.map_cons, List.sum_cons]
        rw [ih hnodup.2 hv hfind]
        omega

theorem unvisitedWork_settle {g : Graph} {visited : List V} {v : V}
    {adj : List (V × Int)} (hnodup : g.keys.Nodup) (hv : v ∉ visited)
    (hfind : g.find v = some adj) :
    unvisitedWork g visited = unvisitedWork g (visited ++ [v]) + (adj.length + 1) :=
  work_aux v adj visited g.adj hnodup hv hfind

/-- The inner relaxation loop never fails on a closed graph, keeps the
distance-table key set, pushes only known vertices, and grows the queue by
at most the degree. -/
theorem relaxAll_light {g : Graph} {v : V} {d : Int} :
    ∀ {adj : List (V × Int)} {visited : List V} {dist : DT} {pq : PQ}
      {steps : List Event},
      (∀ q ∈ adj, q.1 ∈ g.keys) → dist.map Prod.fst = g.keys →
      (∀ x ∈ pq, x.2 ∈ g.keys) →
      ∃ dist' pq' steps',
        relaxAll v d adj visited dist pq steps = Except.ok (dist', pq', steps') ∧
        dist'.map Prod.fst = g.keys ∧ (∀ x ∈ pq', x.2 ∈ g.keys) ∧
        pq'.length ≤ pq.length + adj.length := by
  intro adj
  induction adj with
  | nil =>
    intro visited dist pq steps _ hkeys hpq
    exact ⟨dist, pq, steps, rfl, hkeys, hpq, by omega⟩
  | cons q more ih =>
    intro visited dist pq steps hadj hkeys hpq
    obtain ⟨nb, w⟩ := q
    have hnbk : nb ∈ g.keys := hadj (nb, w) (List.mem_cons_self _ _)
    rw [relaxAll]
    by_cases hnb : nb ∈ visited
    · rw [if_pos hnb]
      obtain ⟨dist', pq', steps', hok, h1, h2, h3⟩ :=
        ih (fun q hq => hadj q (List.mem_cons_of_mem _ hq)) hkeys hpq
      exact ⟨dist', pq', steps', hok, h1, h2, by simp only [List.length_cons]; omega⟩
    · rw [if_neg hnb]
      obtain ⟨dn, hdn⟩ := @lookupA_isSome_of_mem Dist dist nb (hkeys ▸ hnbk)
      simp only [hdn]
      by_cases hlt : DLt (Dist.fin (d + w)) dn
      · rw [if_pos hlt]
        have hkeys' : (updateD dist nb (Dist.fin (d + w))).map Prod.fst = g.keys := by
          rw [map_fst_updateD _ (hkeys ▸ hnbk)]
          exact hkeys
        have hpq' : ∀ x ∈ pqPush (d + w, nb) pq, x.2 ∈ g.keys := by
          intro x hx
          rcases mem_pqPush.mp hx with rfl | hx
          · exact hnbk
          · exact hpq x hx
        obtain ⟨dist', pq', steps', hok, h1, h2, h3⟩ :=
          ih (fun q hq => hadj q (List.mem_cons_of_mem _ hq)) hkeys' hpq'
        refine ⟨dist', pq', steps', hok, h1, h2, ?_⟩
        rw [pqPush_length] at h3
        simp only [List.length_cons]
        omega
      · rw [if_neg hlt]
        obtain ⟨dist', pq', steps', hok, h1, h2, h3⟩ :=
          ih (fun q hq => hadj q (List.mem_cons_of_mem _ hq)) hkeys hpq
        exact ⟨dist', pq', steps', hok, h1, h2, by simp only [List.length_cons]; omega⟩

/-- On a well-formed graph the loop never raises `KeyError` and never runs
out of the fuel budget `loopMeasure`. -/
theorem loopF_ok_light {g : Graph} (hwf : WFG g) :
    ∀ (fuel : Nat) (pq : PQ) (visited : List V) (dist : DT) (steps : List Event),
      loopMeasure g pq visited < fuel → dist.map Prod.fst = g.keys →
      (∀ x ∈ pq, x.2 ∈ g.keys) →
      ∃ r, loopF fuel g pq visited dist steps = Except.ok r := by
  intro fuel
  induction fuel with
  | zero => intro pq visited dist steps hm _ _; exact absurd hm (by omega)
  | succ n ih =>
    intro pq visited dist steps hm hkeys hpq
    match pq with
    | [] => exact ⟨(dist, steps), by rw [loopF]⟩
    | (d, v) :: rest =>
      rw [loopF]
      by_cases hv : v ∈ visited
      · rw [if_pos hv]
        apply ih rest visited dist steps _ hkeys
          (fun x hx => hpq x (List.mem_cons_of_mem _ hx))
        unfold loopMeasure at hm ⊢
        simp only [List.length_cons] at hm
        omega
      · rw [if_neg hv]
        have hvk : v ∈ g.keys := hpq (d, v) (List.mem_cons_self _ _)
        obtain ⟨adj, hfind⟩ := @lookupA_isSome_of_mem (List (V × Int)) g.adj v hvk
        have hfind' : g.find v = some adj := hfind
        simp only [hfind']
        have hadjk : ∀ q ∈ adj, q.1 ∈ g.keys :=
          fun q hq => hwf.2 (v, adj) (mem_of_lookupA hfind) q hq
        obtain ⟨dist', pq', steps', hok, h1, h2, h3⟩ :=
          @relaxAll_light g v d adj (visited ++ [v]) dist rest
            (steps ++ [⟨v, none, dist, visited ++ [v]⟩])
            hadjk hkeys (fun x hx => hpq x (List.mem_cons_of_mem _ hx))
        simp only [hok]
        apply ih pq' (visited ++ [v]) dist' steps' _ h1 h2
        have hws := unvisitedWork_settle hwf.1 hv hfind
        unfold loopMeasure at hm ⊢
        simp only [List.length_cons] at hm
        omega

theorem initDist_keys (g : Graph) (s : V) (hs : s ∈ g.keys) :
    (initDist g s).map Prod.fst = g.keys := by
  unfold initDist
  have hkeq : (g.adj.map (fun p => (p.1, Dist.inf))).map Prod.fst = g.keys := by
    simp [List.map_map, Function.comp, Graph.keys]
  have hmem : s ∈ (g.adj.map (fun p => (p.1, Dist.inf))).map Prod.fst := by
    rw [hkeq]; exact hs
  rw [map_fst_updateD _ hmem, hkeq]

/-- Claim C2, amended.  The code performs no negative-weight validation at
all: on every well-formed graph whose start vertex is a key — including
graphs with negative edge weights — the tracer runs the algorithm to
completion and returns distances and an event log; it never raises
`InvalidInput`. -/
theorem c2_amended_runs_without_check (g : Graph) (s : V) (hwf : WFG g)
    (hs : s ∈ g.keys) : ∃ r, dijkstra_with_steps g s = Except.ok r := by
  unfold dijkstra_with_steps
  apply loopF_ok_light hwf
  · unfold loopMeasure initFuel
    simp only [List.length_cons, List.length_nil]
    omega
  · exact initDist_keys g s hs
  · intro x hx
    have : x = (0, s) := List.mem_singleton.mp hx
    subst this
    exact hs

/-- Witness for the amended C2: `negG` carries the negative edge
`(0, 1, -5)` and the tracer still returns `Except.ok`. -/
theorem c2_witness :
    WFG negG ∧ (0 : V) ∈ negG.keys ∧ ¬ NonNegG negG ∧
    (∃ r, dijkstra_with_steps negG 0 = Except.ok r) :=
  ⟨by decide, by decide, by decide,
   c2_amended_runs_without_check negG 0 (by decide) (by decide)⟩

/-! ### Final-frame summary table of the player -/

/-- Claim C9.  The player adds the summary table exactly on the frame whose
index is `len(animation_steps) - 1` (no table at all when the log is empty,
since no frame is drawn), and the table pairs every vertex with the string of
its final distance — the `"infinity"` marker for the infinite sentinel — in
rows sorted by vertex identifier ascending. -/
theorem c9_final_frame_summary :
    (∀ (steps : List Event) (i : Nat),
        rendersTable steps i = true ↔ steps ≠ [] ∧ i = steps.length - 1) ∧
    (∀ final : DT,
        (summaryTable final).Perm (final.map (fun p => (p.1, distStr p.2)))) ∧
    (∀ final : DT, List.Pairwise (fun a b : V × String => a.1 ≤ b.1) (summaryTable final)) ∧
    (∀ final : DT, ∀ p ∈ final, (p.1, distStr p.2) ∈ summaryTable final) ∧
    distStr Dist.inf = "infinity" ∧ (∀ n : Int, distStr (Dist.fin n) = toString n) := by
  refine ⟨?_, ?_, ?_, ?_, rfl, fun _ => rfl⟩
  · intro steps i
    unfold rendersTable isFinalFrame
    rw [Bool.and_eq_true, decide_eq_true_iff, beq_iff_eq]
    constructor
    · rintro ⟨h1, h2⟩
      have hlen : steps.length ≠ 0 := by omega
      refine ⟨fun hnil => hlen (by simp [hnil]), ?_⟩
      omega
    · rintro ⟨hne, rfl⟩
      have hpos : 0 < steps.length := List.length_pos.mpr hne
      constructor
      · omega
      · omega
  · intro final
    exact (List.perm_insertionSort keyLe final).map _
  · intro final
    have hs := List.sorted_insertionSort keyLe final
    unfold summaryTable
    rw [List.pairwise_map]
    exact hs
  · intro final p hp
    have hperm := (List.perm_insertionSort keyLe final).map
      (fun p : V × Dist => (p.1, distStr p.2))
    exact hperm.mem_iff.mpr (List.mem_map_of_mem _ hp)

/-- Witness for C9 on the specification's summary-table scenario. -/
theorem c9_witness :
    rendersTable [⟨0, none, [], [0]⟩, ⟨1, none, [], [0, 1]⟩] 1 = true ∧
    summaryTable [(0, Dist.fin 0), (3, Dist.fin 7), (1, Dist.fin 6), (2, Dist.inf)] =
      [(0, "0"), (1, "6"), (2, "infinity"), (3, "7")] ∧
    (0, distStr (Dist.fin 0)) ∈
      summaryTable [(0, Dist.fin 0), (3, Dist.fin 7), (1, Dist.fin 6), (2, Dist.inf)] := by
  refine ⟨?_, rfl, ?_⟩
  · exact (c9_final_frame_summary.1 _ 1).mpr ⟨by simp, rfl⟩
  · exact c9_final_frame_summary.2.2.2.1 _ (0, Dist.fin 0) (by decide)

/-! ### The global loop invariant

`InvCore` collects everything the algorithmic claims need about a loop state
`(pq, visited, dist, steps)`: the algorithm-side facts (settled vertices
carry true shortest distances, the queue covers the frontier, the queue is
kept in `heapq` order) and the log-side facts (snapshot shapes and the
monotone structure of the recorded visited sets). -/

/-- The relaxed-edge record: an edge from a settled vertex to an unsettled
neighbor has already forced the neighbor's tentative distance below
`dist u + w`. -/
def EdgeDone (visited : List V) (dist : DT) (u nb : V) (w : Int) : Prop :=
  nb ∉ visited → ∃ du e, lookupA dist u = some (Dist.fin du) ∧
    lookupA dist nb = some (Dist.fin e) ∧ e ≤ du + w

/-- The visited-set snapshots of the settlement events, in log order. -/
def settleSnapsOf (steps : List Event) : List (List V) :=
  (steps.filter (fun ev => ev.visited_path.isNone)).map Event.visited_nodes_set

/-- The settled vertices of the settlement events, in log order. -/
def settleNodesOf (steps : List Event) : List V :=
  (steps.filter (fun ev => ev.visited_path.isNone)).map Event.visited_node

/-- Claim C5's strict-decrease property: the distance snapshot of a
relaxation event is strictly below every earlier snapshot at the relaxed
vertex. -/
def RelaxDecr (steps : List Event) : Prop :=
  ∀ i j (hi : i < steps.length) (hj : j < steps.length), i < j →
    ∀ u nb, (steps.get ⟨j, hj⟩).visited_path = some (u, nb) →
      ∃ ej ei, lookupA (steps.get ⟨j, hj⟩).distances nb = some ej ∧
        lookupA (steps.get ⟨i, hi⟩).distances nb = some ei ∧ DLt ej ei

structure InvCore (g : Graph) (s : V) (pq : PQ) (visited : List V) (dist : DT)
    (steps : List Event) : Prop where
  keysEq : dist.map Prod.fst = g.keys
  visKeys : ∀ v ∈ visited, v ∈ g.keys
  visNodup : visited.Nodup
  sortedPQ : List.Pairwise pqLe pq
  pqKeys : ∀ x ∈ pq, x.2 ∈ g.keys
  pqWalk : ∀ x ∈ pq, Walk g s x.2 x.1
  pqDist : ∀ x ∈ pq, ∃ e, lookupA dist x.2 = some (Dist.fin e) ∧ e ≤ x.1
  finWalk : ∀ v e, lookupA dist v = some (Dist.fin e) → Walk g s v e
  settledInv : ∀ v ∈ visited, ∃ dv, lookupA dist v = some (Dist.fin dv) ∧ IsShortest g s v dv
  queued : ∀ v e, v ∉ visited → lookupA dist v = some (Dist.fin e) → (e, v) ∈ pq
  startZero : lookupA dist s = some (Dist.fin 0)
  snapLe : ∀ ev ∈ steps, ∀ k e, lookupA dist k = some e →
    ∃ e2, lookupA ev.distances k = some e2 ∧ DLe e e2
  snapKeys : ∀ ev ∈ steps, ev.distances.map Prod.fst = g.keys
  relaxDecr : RelaxDecr steps
  settleSnapsEq : settleSnapsOf steps = prefixes visited
  settleNodesEq : settleNodesOf steps = visited
  evNode : ∀ ev ∈ steps, ev.visited_node ∈ visited
  evSetPre : ∀ ev ∈ steps, ev.visited_nodes_set <+: visited
  chainSets : List.Chain' (fun a b => a <+: b) (steps.map Event.visited_nodes_set)
  visFin : ∀ ev ∈ steps, ∀ x ∈ ev.visited_nodes_set,
    ∃ n, lookupA ev.distances x = some (Dist.fin n)
  relaxShape : ∀ ev ∈ steps, ∀ p, ev.visited_path = some p → p.1 = ev.visited_node
  relaxSetMatch : ∀ ev ∈ steps, ev.visited_path.isSome = true →
    ∀ ev2 ∈ steps, ev2.visited_path = none → ev2.visited_node = ev.visited_node →
      ev2.visited_nodes_set = ev.visited_nodes_set

/-- The loop-level invariant: `InvCore` plus a complete relaxed-edge record
for all settled vertices. -/
def Inv (g : Graph) (s : V) (pq : PQ) (visited : List V) (dist : DT)
    (steps : List Event) : Prop :=
  InvCore g s pq visited dist steps ∧
    ∀ u ∈ visited, ∀ q ∈ adjOf g u, EdgeDone visited dist u q.1 q.2

/-- The invariant inside the relaxation loop for the freshly settled vertex
`v` (popped with distance `d`): the relaxed-edge record holds except for the
edges of `v` still pending in `adj`. -/
def InvR (g : Graph) (s : V) (v : V) (d : Int) (adj : List (V × Int)) (pq : PQ)
    (visited : List V) (dist : DT) (steps : List Event) : Prop :=
  InvCore g s pq visited dist steps ∧
  (∀ u ∈ visited, ∀ q ∈ adjOf g u, (u = v → q ∉ adj) → EdgeDone visited dist u q.1 q.2) ∧
  v ∈ visited ∧ visited.getLast? = some v ∧ lookupA dist v = some (Dist.fin d) ∧
  (∀ q ∈ adj, q ∈ adjOf g v)

/-! Helper lemmas about the recorded log. -/

/-- In a log whose settlement nodes spell out `visited` and whose settlement
snapshots are the prefixes of `visited`, a settlement event for the last
element of `visited` must carry the full `visited` snapshot. -/
theorem settle_snap_of_last {steps : List Event} {visited : List V} {v : V}
    (hnodes : settleNodesOf steps = visited)
    (hsnaps : settleSnapsOf steps = prefixes visited)
    (hnodup : visited.Nodup) (hlast : visited.getLast? = some v) :
    ∀ ev ∈ steps, ev.visited_path = none → ev.visited_node = v →
      ev.visited_nodes_set = visited := by
  intro ev hev hpath hnode
  have hevL : ev ∈ steps.filter (fun e => e.visited_path.isNone) :=
    List.mem_filter.mpr ⟨hev, by simp [hpath]⟩
  obtain ⟨i, hi, hgc⟩ := List.mem_iff_getElem.mp hevL
  have hlenL : (steps.filter (fun e => e.visited_path.isNone)).length = visited.length := by
    have h1 := congrArg List.length hnodes
    simpa [settleNodesOf] using h1
  have hiv : i < visited.length := by rw [← hlenL]; exact hi
  have hne : visited ≠ [] := by
    intro h0
    rw [h0] at hlast
    simp at hlast
  have hvlast : visited.getLast hne = v := by
    rw [List.getLast?_eq_getLast_of_ne_nil hne] at hlast
    exact Option.some.inj hlast
  have hlenN : i < (settleNodesOf steps).length := by
    simpa [settleNodesOf] using hi
  have hvi : visited[i] = ev.visited_node := by
    rw [List.getElem_of_eq hnodes.symm hiv]
    unfold settleNodesOf
    rw [List.getElem_map, hgc]
  have hieq : i = visited.length - 1 := by
    have hb : visited.length - 1 < visited.length := by omega
    have h2 : visited[i] = visited[visited.length - 1] := by
      rw [hvi, hnode, ← List.getLast_eq_getElem visited hne, hvlast]
    exact (hnodup.getElem_inj_iff).mp h2
  have hlenS : i < (settleSnapsOf steps).length := by
    simpa [settleSnapsOf] using hi
  have hset : (settleSnapsOf steps)[i] = ev.visited_nodes_set := by
    unfold settleSnapsOf
    rw [List.getElem_map, hgc]
  rw [← hset, List.getElem_of_eq hsnaps hlenS, prefixes_getElem, hieq]
  have h3 : visited.length - 1 + 1 = visited.length := by omega
  rw [h3, List.take_length]

/-- Appending an event preserves the strict-decrease log property, provided
the new event (when it is a relaxation) is strictly below every earlier
snapshot at its relaxed vertex. -/
theorem relaxDecr_append {steps : List Event} {ev : Event}
    (h : RelaxDecr steps)
    (hnew : ∀ u nb, ev.visited_path = some (u, nb) →
      ∀ i (hi : i < steps.length),
        ∃ ej ei, lookupA ev.distances nb = some ej ∧
          lookupA (steps.get ⟨i, hi⟩).distances nb = some ei ∧ DLt ej ei) :
    RelaxDecr (steps ++ [ev]) := by
  intro i j hi hj hij u nb hpath
  have hi' : i < steps.length + 1 := by simpa using hi
  have hj' : j < steps.length + 1 := by simpa using hj
  by_cases hjlt : j < steps.length
  · have hilt : i < steps.length := by omega
    have hej : (steps ++ [ev]).get ⟨j, hj⟩ = steps.get ⟨j, hjlt⟩ := by
      rw [List.get_eq_getElem, List.get_eq_getElem]
      exact List.getElem_append_left hjlt
    have hei : (steps ++ [ev]).get ⟨i, hi⟩ = steps.get ⟨i, hilt⟩ := by
      rw [List.get_eq_getElem, List.get_eq_getElem]
      exact List.getElem_append_left hilt
    rw [hej] at hpath
    obtain ⟨ej, ei, h1, h2, h3⟩ := h i j hilt hjlt hij u nb hpath
    exact ⟨ej, ei, by rw [hej]; exact h1, by rw [hei]; exact h2, h3⟩
  · have hje : j = steps.length := by omega
    have hilt : i < steps.length := by omega
    have hgj : (steps ++ [ev]).get ⟨j, hj⟩ = ev := by
      rw [List.get_eq_getElem]
      rw [List.getElem_append_right (le_of_eq hje.symm)]
      simp [hje]
    have hei : (steps ++ [ev]).get ⟨i, hi⟩ = steps.get ⟨i, hilt⟩ := by
      rw [List.get_eq_getElem, List.get_eq_getElem]
      exact List.getElem_append_left hilt
    rw [hgj] at hpath
    obtain ⟨ej, ei, h1, h2, h3⟩ := hnew u nb hpath i hilt
    exact ⟨ej, ei, by rw [hgj]; exact h1, by rw [hei]; exact h2, h3⟩

/-! The cut argument: any walk leaving the settled region is covered by a
frontier entry of no larger distance. -/

theorem frontier_path {g : Graph} {s : V} {pq : PQ} {visited : List V} {dist : DT}
    {steps : List Event} (inv : Inv g s pq visited dist steps) (hnn : NonNegG g)
    {u t : V} {c : Int} (hwalk : Walk g u t c) :
    u ∈ visited → t ∉ visited →
      ∀ du : Int, lookupA dist u = some (Dist.fin du) → IsShortest g s u du →
        ∃ x ∈ pq, x.1 ≤ du + c := by
  induction hwalk with
  | nil w =>
    intro hu ht
    exact absurd hu ht
  | @cons u1 v2 t1 w c2 he htail ih =>
    intro hu ht du hdu hshort
    by_cases hv2 : v2 ∈ visited
    · obtain ⟨dv2, hdv2, hshort2⟩ := inv.1.settledInv v2 hv2
      have hwalk2 : Walk g s v2 (du + w) := walk_snoc hshort.1 he
      have hle2 : dv2 ≤ du + w := hshort2.2 _ hwalk2
      obtain ⟨x, hx, hxle⟩ := ih hv2 ht dv2 hdv2 hshort2
      obtain ⟨x1, x2⟩ := x
      refine ⟨(x1, x2), hx, ?_⟩
      have hxle' : x1 ≤ dv2 + c2 := hxle
      show x1 ≤ du + (w + c2)
      omega
    · obtain ⟨du', e, hdu', he', hle⟩ := inv.2 u1 hu (v2, w) he hv2
      have hdeq : du' = du := by
        rw [hdu] at hdu'
        cases hdu'
        rfl
      subst hdeq
      have hq := inv.1.queued v2 e hv2 he'
      have hc2 : 0 ≤ c2 := walk_nonneg hnn htail
      refine ⟨(e, v2), hq, ?_⟩
      show e ≤ du' + (w + c2)
      omega

theorem cover {g : Graph} {s : V} {pq : PQ} {visited : List V} {dist : DT}
    {steps : List Event} (inv : Inv g s pq visited dist steps) (hnn : NonNegG g)
    {t : V} {c : Int} (hwalk : Walk g s t c) (ht : t ∉ visited) :
    ∃ x ∈ pq, x.1 ≤ c := by
  by_cases hs : s ∈ visited
  · obtain ⟨ds, hds, hshorts⟩ := inv.1.settledInv s hs
    have hle : ds ≤ 0 := hshorts.2 0 (Walk.nil s)
    obtain ⟨x, hx, hxle⟩ := frontier_path inv hnn hwalk hs ht ds hds hshorts
    obtain ⟨x1, x2⟩ := x
    refine ⟨(x1, x2), hx, ?_⟩
    have hxle' : x1 ≤ ds + c := hxle
    show x1 ≤ c
    omega
  · have hq := inv.1.queued s 0 hs inv.1.startZero
    have hc : 0 ≤ c := walk_nonneg hnn hwalk
    exact ⟨(0, s), hq, hc⟩

/-- When the lexicographically minimal frontier entry names an unvisited
vertex, its distance is the vertex's current tentative distance and the true
shortest-path distance. -/
theorem settle_correct {g : Graph} {s : V} {d : Int} {v : V} {rest : PQ}
    {visited : List V} {dist : DT} {steps : List Event}
    (inv : Inv g s ((d, v) :: rest) visited dist steps) (hnn : NonNegG g)
    (hv : v ∉ visited) :
    lookupA dist v = some (Dist.fin d) ∧ IsShortest g s v d := by
  obtain ⟨e, he, hed⟩ := inv.1.pqDist (d, v) (List.mem_cons_self _ _)
  have hq := inv.1.queued v e hv he
  have hde : d ≤ e := by
    rcases List.mem_cons.mp hq with heq | hmem
    · have : e = d := congrArg Prod.fst heq
      omega
    · have hp := pairwise_head_min inv.1.sortedPQ (e, v) hmem
      rcases hp with h | ⟨h, _⟩
      · exact le_of_lt h
      · exact le_of_eq h
  have hed' : e = d := by omega
  subst hed'
  refine ⟨he, inv.1.finWalk v e he, ?_⟩
  intro c hc
  obtain ⟨x, hx, hxle⟩ := cover inv hnn hc hv
  obtain ⟨x1, x2⟩ := x
  have hxle' : x1 ≤ c := hxle
  rcases List.mem_cons.mp hx with heq | hmem
  · have : e = x1 := (congrArg Prod.fst heq).symm
    omega
  · have hp := pairwise_head_min inv.1.sortedPQ (x1, x2) hmem
    rcases hp with h | ⟨h, _⟩
    · have : e < x1 := h
      omega
    · have : e = x1 := h
      omega

/-! Small facts feeding the relaxation-step preservation proof. -/

theorem not_DLt_fin {c : Int} {dn : Dist} (h : ¬ DLt (Dist.fin c) dn) :
    ∃ e0, dn = Dist.fin e0 ∧ e0 ≤ c := by
  cases dn with
  | fin e0 =>
    refine ⟨e0, rfl, ?_⟩
    have : ¬ c < e0 := h
    omega
  | inf => exact absurd trivial h

theorem DLt_fin_fin {a b : Int} (h : DLt (Dist.fin a) (Dist.fin b)) : a < b := h

theorem settleSnapsOf_append_settle {steps : List Event} {ev : Event}
    (h : ev.visited_path = none) :
    settleSnapsOf (steps ++ [ev]) = settleSnapsOf steps ++ [ev.visited_nodes_set] := by
  unfold settleSnapsOf
  rw [List.filter_append, List.map_append]
  simp [List.filter_cons, h]

theorem settleSnapsOf_append_relax {steps : List Event} {ev : Event} {p : V × V}
    (h : ev.visited_path = some p) :
    settleSnapsOf (steps ++ [ev]) = settleSnapsOf steps := by
  unfold settleSnapsOf
  rw [List.filter_append]
  simp [List.filter_cons, h]

theorem settleNodesOf_append_settle {steps : List Event} {ev : Event}
    (h : ev.visited_path = none) :
    settleNodesOf (steps ++ [ev]) = settleNodesOf steps ++ [ev.visited_node] := by
  unfold settleNodesOf
  rw [List.filter_append, List.map_append]
  simp [List.filter_cons, h]

theorem settleNodesOf_append_relax {steps : List Event} {ev : Event} {p : V × V}
    (h : ev.visited_path = some p) :
    settleNodesOf (steps ++ [ev]) = settleNodesOf steps := by
  unfold settleNodesOf
  rw [List.filter_append]
  simp [List.filter_cons, h]

theorem chain_append_sets {steps : List Event} {ev : Event}
    (hchain : List.Chain' (fun a b => a <+: b) (steps.map Event.visited_nodes_set))
    (hlast : ∀ ev0 ∈ steps, ev0.visited_nodes_set <+: ev.visited_nodes_set) :
    List.Chain' (fun a b => a <+: b) ((steps ++ [ev]).map Event.visited_nodes_set) := by
  rw [List.map_append]
  rw [List.chain'_append]
  refine ⟨hchain, by simp, ?_⟩
  intro x hx y hy
  have hy2 : y = ev.visited_nodes_set := by
    have := hy
    simp at this
    exact this.symm
  obtain ⟨hne, heq⟩ := List.mem_getLast?_eq_getLast hx
  have hx2 : x ∈ steps.map Event.visited_nodes_set := heq ▸ List.getLast_mem hne
  obtain ⟨ev0, hev0, rfl⟩ := List.mem_map.mp hx2
  rw [hy2]
  exact hlast ev0 hev0

/-- A strict decrease of the tentative distance of an unvisited vertex
preserves every relaxed-edge record. -/
theorem EdgeDone_update {visited : List V} {dist : DT} {nb : V} {cand : Int}
    (hnb : nb ∉ visited) {dn : Dist} (hlive : lookupA dist nb = some dn)
    (hlt : DLt (Dist.fin cand) dn) {u t : V} {w : Int} (hu : u ∈ visited)
    (h : EdgeDone visited dist u t w) :
    EdgeDone visited (updateD dist nb (Dist.fin cand)) u t w := by
  intro ht
  obtain ⟨du, e, hdu, he, hle⟩ := h ht
  have hune : u ≠ nb := fun hh => hnb (hh ▸ hu)
  by_cases htnb : t = nb
  · subst htnb
    rw [he] at hlive
    have hdn : dn = Dist.fin e := (Option.some.inj hlive).symm
    subst hdn
    have hce : cand < e := hlt
    refine ⟨du, cand, ?_, lookupA_updateD_self _ _ _, by omega⟩
    rw [lookupA_updateD_ne _ _ hune]
    exact hdu
  · refine ⟨du, e, ?_, ?_, hle⟩
    · rw [lookupA_updateD_ne _ _ hune]
      exact hdu
    · rw [lookupA_updateD_ne _ _ htnb]
      exact he

/-- The relaxation loop preserves the invariant: starting from the
mid-relaxation invariant with pending edges `adj`, it completes without
error, discharges all pending edges, and grows the queue by at most
`adj.length`. -/
theorem relaxAll_inv {g : Graph} {s : V} {v : V} {d : Int} (hwf : WFG g)
    (hnn : NonNegG g) :
    ∀ {adj : List (V × Int)} {pq : PQ} {visited : List V} {dist : DT}
      {steps : List Event},
      InvR g s v d adj pq visited dist steps →
      ∃ dist' pq' steps',
        relaxAll v d adj visited dist pq steps = Except.ok (dist', pq', steps') ∧
        InvR g s v d [] pq' visited dist' steps' ∧
        pq'.length ≤ pq.length + adj.length := by
  intro adj
  induction adj with
  | nil =>
    intro pq visited dist steps hinv
    exact ⟨dist, pq, steps, rfl, hinv, by simp⟩
  | cons q0 more ih =>
    intro pq visited dist steps hinv
    obtain ⟨core, f2, hvmem, hlast, hd, hadj⟩ := hinv
    obtain ⟨nb, w⟩ := q0
    have hnbadj : (nb, w) ∈ adjOf g v := hadj (nb, w) (List.mem_cons_self _ _)
    have hadjm : ∀ q ∈ more, q ∈ adjOf g v := fun q hq => hadj q (List.mem_cons_of_mem _ hq)
    rw [relaxAll]
    by_cases hnb : nb ∈ visited
    · rw [if_pos hnb]
      have hinv2 : InvR g s v d more pq visited dist steps := by
        refine ⟨core, ?_, hvmem, hlast, hd, hadjm⟩
        intro u hu q hq hg
        by_cases huv : u = v
        · subst huv
          have hqm2 : q ∉ more := hg rfl
          by_cases hqm : q = (nb, w)
          · subst hqm
            intro hnv
            exact absurd hnb hnv
          · apply f2 u hu q hq
            intro _ hmem
            rcases List.mem_cons.mp hmem with h1 | h1
            · exact hqm h1
            · exact hqm2 h1
        · apply f2 u hu q hq
          intro he
          exact absurd he huv
      obtain ⟨dist', pq', steps', hok, hout, hlen⟩ := ih hinv2
      exact ⟨dist', pq', steps', hok, hout, by simp only [List.length_cons]; omega⟩
    · rw [if_neg hnb]
      have hnbk : nb ∈ g.keys := adjOf_closed hwf hnbadj
      obtain ⟨dn, hdn⟩ := @lookupA_isSome_of_mem Dist dist nb (core.keysEq.symm ▸ hnbk)
      simp only [hdn]
      by_cases hlt : DLt (Dist.fin (d + w)) dn
      · rw [if_pos hlt]
        have hvne : v ≠ nb := fun hh => hnb (hh ▸ hvmem)
        have hd0 : 0 ≤ d := walk_nonneg hnn (core.finWalk v d hd)
        have hw0 : 0 ≤ w := weight_nonneg hnn hnbadj
        have hlooknew :
            lookupA (updateD dist nb (Dist.fin (d + w))) nb = some (Dist.fin (d + w)) :=
          lookupA_updateD_self _ _ _
        have hlookold : ∀ k, k ≠ nb →
            lookupA (updateD dist nb (Dist.fin (d + w))) k = lookupA dist k :=
          fun k hk => lookupA_updateD_ne _ _ hk
        have hdv2 : lookupA (updateD dist nb (Dist.fin (d + w))) v = some (Dist.fin d) := by
          rw [hlookold v hvne]
          exact hd
        have hkeys2 : (updateD dist nb (Dist.fin (d + w))).map Prod.fst = g.keys := by
          rw [map_fst_updateD _ (core.keysEq.symm ▸ hnbk)]
          exact core.keysEq
        have hcore2 : InvCore g s (pqPush (d + w, nb) pq) visited
            (updateD dist nb (Dist.fin (d + w)))
            (steps ++ [⟨v, some (v, nb), updateD dist nb (Dist.fin (d + w)), visited⟩]) := by
          refine ⟨hkeys2, core.visKeys, core.visNodup, pairwise_pqPush _ core.sortedPQ,
            ?_, ?_, ?_, ?_, ?_, ?_, ?_, ?_, ?_, ?_, ?_, ?_, ?_, ?_, ?_, ?_, ?_, ?_⟩
          · intro x hx
            rcases mem_pqPush.mp hx with rfl | hx2
            · exact hnbk
            · exact core.pqKeys x hx2
          · intro x hx
            rcases mem_pqPush.mp hx with rfl | hx2
            · exact walk_snoc (core.finWalk v d hd) hnbadj
            · exact core.pqWalk x hx2
          · intro x hx
            rcases mem_pqPush.mp hx with rfl | hx2
            · exact ⟨d + w, hlooknew, le_refl _⟩
            · obtain ⟨e, he, hle⟩ := core.pqDist x hx2
              by_cases hxnb : x.2 = nb
              · rw [hxnb] at he
                rw [he] at hdn
                have hdnfe : dn = Dist.fin e := (Option.some.inj hdn).symm
                subst hdnfe
                have hcl : d + w < e := hlt
                refine ⟨d + w, ?_, by omega⟩
                rw [hxnb]
                exact hlooknew
              · exact ⟨e, by rw [hlookold _ hxnb]; exact he, hle⟩
          · intro k e hk
            by_cases hknb : k = nb
            · subst hknb
              rw [hlooknew] at hk
              have : Dist.fin (d + w) = Dist.fin e := Option.some.inj hk
              cases this
              exact walk_snoc (core.finWalk v d hd) hnbadj
            · rw [hlookold k hknb] at hk
              exact core.finWalk k e hk
          · intro u hu
            have hune : u ≠ nb := fun hh => hnb (hh ▸ hu)
            obtain ⟨du, h1, h2⟩ := core.settledInv u hu
            exact ⟨du, by rw [hlookold u hune]; exact h1, h2⟩
          · intro v2 e hv2 hk
            by_cases hvnb : v2 = nb
            · subst hvnb
              rw [hlooknew] at hk
              have : Dist.fin (d + w) = Dist.fin e := Option.some.inj hk
              cases this
              exact mem_pqPush.mpr (Or.inl rfl)
            · rw [hlookold _ hvnb] at hk
              exact mem_pqPush.mpr (Or.inr (core.queued v2 e hv2 hk))
          · by_cases hsnb : s = nb
            · exfalso
              rw [← hsnb] at hdn
              rw [core.startZero] at hdn
              have hdn0 : dn = Dist.fin 0 := (Option.some.inj hdn).symm
              subst hdn0
              have : d + w < 0 := hlt
              omega
            · rw [hlookold s hsnb]
              exact core.startZero
          · intro ev0 hev0 k e hk
            rcases List.mem_append.mp hev0 with hold | hnew
            · by_cases hknb : k = nb
              · subst hknb
                rw [hlooknew] at hk
                have : Dist.fin (d + w) = e := Option.some.inj hk
                obtain ⟨e2, he2, hle2⟩ := core.snapLe ev0 hold k dn hdn
                exact ⟨e2, he2, this ▸ DLe.trans (DLe_of_DLt hlt) hle2⟩
              · rw [hlookold k hknb] at hk
                exact core.snapLe ev0 hold k e hk
            · have hev : ev0 = ⟨v, some (v, nb), updateD dist nb (Dist.fin (d + w)), visited⟩ := by
                simpa using hnew
              subst hev
              exact ⟨e, hk, DLe.refl e⟩
          · intro ev0 hev0
            rcases List.mem_append.mp hev0 with hold | hnew
            · exact core.snapKeys ev0 hold
            · have hev : ev0 = ⟨v, some (v, nb), updateD dist nb (Dist.fin (d + w)), visited⟩ := by
                simpa using hnew
              subst hev
              exact hkeys2
          · apply relaxDecr_append core.relaxDecr
            intro u2 nb2 hpath i hi
            have hp : (v, nb) = (u2, nb2) := Option.some.inj hpath
            have hnb2 : nb = nb2 := congrArg Prod.snd hp
            subst hnb2
            obtain ⟨e2, he2, hle2⟩ :=
              core.snapLe (steps.get ⟨i, hi⟩) (steps.get_mem _ _) nb dn hdn
            exact ⟨Dist.fin (d + w), e2, hlooknew, he2, DLt.trans_DLe hlt hle2⟩
          · rw [settleSnapsOf_append_relax rfl]
            exact core.settleSnapsEq
          · rw [settleNodesOf_append_relax rfl]
            exact core.settleNodesEq
          · intro ev0 hev0
            rcases List.mem_append.mp hev0 with hold | hnew
            · exact core.evNode ev0 hold
            · have hev : ev0 = ⟨v, some (v, nb), updateD dist nb (Dist.fin (d + w)), visited⟩ := by
                simpa using hnew
              subst hev
              exact hvmem
          · intro ev0 hev0
            rcases List.mem_append.mp hev0 with hold | hnew
            · exact core.evSetPre ev0 hold
            · have hev : ev0 = ⟨v, some (v, nb), updateD dist nb (Dist.fin (d + w)), visited⟩ := by
                simpa using hnew
              subst hev
              exact List.prefix_refl _
          · exact chain_append_sets core.chainSets (fun ev0 h0 => core.evSetPre ev0 h0)
          · intro ev0 hev0
            rcases List.mem_append.mp hev0 with hold | hnew
            · exact core.visFin ev0 hold
            · have hev : ev0 = ⟨v, some (v, nb), updateD dist nb (Dist.fin (d + w)), visited⟩ := by
                simpa using hnew
              subst hev
              intro x hx
              have hxne : x ≠ nb := fun hh => hnb (hh ▸ hx)
              obtain ⟨dx, h1, _⟩ := core.settledInv x hx
              exact ⟨dx, by
                show lookupA (updateD dist nb (Dist.fin (d + w))) x = some (Dist.fin dx)
                rw [hlookold x hxne]
                exact h1⟩
          · intro ev0 hev0 p hp
            rcases List.mem_append.mp hev0 with hold | hnew
            · exact core.relaxShape ev0 hold p hp
            · have hev : ev0 = ⟨v, some (v, nb), updateD dist nb (Dist.fin (d + w)), visited⟩ := by
                simpa using hnew
              subst hev
              have : (v, nb) = p := Option.some.inj hp
              rw [← this]
          · intro ev1 hev1 hsome ev2 hev2 hpath2 hnode2
            have hev2s : ev2 ∈ steps := by
              rcases List.mem_append.mp hev2 with hold | hnew
              · exact hold
              · exfalso
                have hev : ev2 = ⟨v, some (v, nb), updateD dist nb (Dist.fin (d + w)), visited⟩ := by
                  simpa using hnew
                subst hev
                exact Option.noConfusion hpath2
            rcases List.mem_append.mp hev1 with hold | hnew
            · exact core.relaxSetMatch ev1 hold hsome ev2 hev2s hpath2 hnode2
            · have hev : ev1 = ⟨v, some (v, nb), updateD dist nb (Dist.fin (d + w)), visited⟩ := by
                simpa using hnew
              subst hev
              exact settle_snap_of_last core.settleNodesEq core.settleSnapsEq
                core.visNodup hlast ev2 hev2s hpath2 hnode2
        have hinv2 : InvR g s v d more (pqPush (d + w, nb) pq) visited
            (updateD dist nb (Dist.fin (d + w)))
            (steps ++ [⟨v, some (v, nb), updateD dist nb (Dist.fin (d + w)), visited⟩]) := by
          refine ⟨hcore2, ?_, hvmem, hlast, hdv2, hadjm⟩
          intro u hu q hq hg
          by_cases huv : u = v
          · subst huv
            have hqm2 : q ∉ more := hg rfl
            by_cases hqm : q = (nb, w)
            · subst hqm
              intro _
              exact ⟨d, d + w, hdv2, hlooknew, le_refl _⟩
            · have hold : EdgeDone visited dist u q.1 q.2 := by
                apply f2 u hu q hq
                intro _ hmem
                rcases List.mem_cons.mp hmem with h1 | h1
                · exact hqm h1
                · exact hqm2 h1
              exact EdgeDone_update hnb hdn hlt hu hold
          · have hold : EdgeDone visited dist u q.1 q.2 := by
              apply f2 u hu q hq
              intro he
              exact absurd he huv
            exact EdgeDone_update hnb hdn hlt hu hold
        obtain ⟨dist', pq', steps', hok, hout, hlen⟩ := ih hinv2
        refine ⟨dist', pq', steps', hok, hout, ?_⟩
        rw [pqPush_length] at hlen
        simp only [List.length_cons]
        omega
      · rw [if_neg hlt]
        obtain ⟨e0, he0, hle0⟩ := not_DLt_fin hlt
        have hinv2 : InvR g s v d more pq visited dist steps := by
          refine ⟨core, ?_, hvmem, hlast, hd, hadjm⟩
          intro u hu q hq hg
          by_cases huv : u = v
          · subst huv
            have hqm2 : q ∉ more := hg rfl
            by_cases hqm : q = (nb, w)
            · subst hqm
              intro _
              refine ⟨d, e0, hd, ?_, hle0⟩
              rw [← he0]
              exact hdn
            · apply f2 u hu q hq
              intro _ hmem
              rcases List.mem_cons.mp hmem with h1 | h1
              · exact hqm h1
              · exact hqm2 h1
          · apply f2 u hu q hq
            intro he
            exact absurd he huv
        obtain ⟨dist', pq', steps', hok, hout, hlen⟩ := ih hinv2
        exact ⟨dist', pq', steps', hok, hout, by simp only [List.length_cons]; omega⟩

theorem Inv_discard {g : Graph} {s : V} {d : Int} {v : V} {rest : PQ}
    {visited : List V} {dist : DT} {steps : List Event}
    (inv : Inv g s ((d, v) :: rest) visited dist steps) (hv : v ∈ visited) :
    Inv g s rest visited dist steps := by
  obtain ⟨core, f2⟩ := inv
  refine ⟨⟨core.keysEq, core.visKeys, core.visNodup,
    (List.pairwise_cons.mp core.sortedPQ).2,
    fun x hx => core.pqKeys x (List.mem_cons_of_mem _ hx),
    fun x hx => core.pqWalk x (List.mem_cons_of_mem _ hx),
    fun x hx => core.pqDist x (List.mem_cons_of_mem _ hx),
    core.finWalk, core.settledInv, ?_, core.startZero, core.snapLe, core.snapKeys,
    core.relaxDecr, core.settleSnapsEq, core.settleNodesEq, core.evNode,
    core.evSetPre, core.chainSets, core.visFin, core.relaxShape,
    core.relaxSetMatch⟩, f2⟩
  intro v2 e hv2 hk
  rcases List.mem_cons.mp (core.queued v2 e hv2 hk) with heq | hmem
  · exfalso
    have : v2 = v := congrArg Prod.snd heq
    exact hv2 (this ▸ hv)
  · exact hmem

theorem Inv_of_InvR {g : Graph} {s : V} {v : V} {d : Int} {pq : PQ}
    {visited : List V} {dist : DT} {steps : List Event}
    (h : InvR g s v d [] pq visited dist steps) : Inv g s pq visited dist steps :=
  ⟨h.1, fun u hu q hq => h.2.1 u hu q hq (fun _ => List.not_mem_nil q)⟩

/-- Settling the popped minimum establishes the mid-relaxation invariant for
the full adjacency list of the settled vertex. -/
theorem Inv_settle_pre {g : Graph} {s : V} {d : Int} {v : V} {rest : PQ}
    {visited : List V} {dist : DT} {steps : List Event} {adj : List (V × Int)}
    (hwf : WFG g) (hnn : NonNegG g)
    (inv : Inv g s ((d, v) :: rest) visited dist steps) (hv : v ∉ visited)
    (hfind : g.find v = some adj) :
    InvR g s v d adj rest (visited ++ [v]) dist
      (steps ++ [⟨v, none, dist, visited ++ [v]⟩]) := by
  obtain ⟨hdist_v, hshort⟩ := settle_correct inv hnn hv
  obtain ⟨core, f2⟩ := inv
  have hvk : v ∈ g.keys := core.pqKeys (d, v) (List.mem_cons_self _ _)
  have hadjOf : adjOf g v = adj := by
    unfold adjOf
    rw [hfind]
    rfl
  refine ⟨⟨core.keysEq, ?_, ?_, (List.pairwise_cons.mp core.sortedPQ).2,
    fun x hx => core.pqKeys x (List.mem_cons_of_mem _ hx),
    fun x hx => core.pqWalk x (List.mem_cons_of_mem _ hx),
    fun x hx => core.pqDist x (List.mem_cons_of_mem _ hx),
    core.finWalk, ?_, ?_, core.startZero, ?_, ?_, ?_, ?_, ?_, ?_, ?_, ?_, ?_,
    ?_, ?_⟩, ?_, ?_, ?_, hdist_v, ?_⟩
  · intro u hu
    rcases List.mem_append.mp hu with h1 | h1
    · exact core.visKeys u h1
    · have : u = v := List.mem_singleton.mp h1
      exact this ▸ hvk
  · simp [List.nodup_append, core.visNodup, hv]
  · intro u hu
    rcases List.mem_append.mp hu with h1 | h1
    · exact core.settledInv u h1
    · have he : u = v := List.mem_singleton.mp h1
      subst he
      exact ⟨d, hdist_v, hshort⟩
  · intro v2 e hv2 hk
    have hv2old : v2 ∉ visited := fun hh => hv2 (List.mem_append.mpr (Or.inl hh))
    have hv2v : v2 ≠ v := fun hh => hv2 (List.mem_append.mpr (Or.inr (hh ▸ List.mem_singleton_self v)))
    rcases List.mem_cons.mp (core.queued v2 e hv2old hk) with heq | hmem
    · exact absurd (congrArg Prod.snd heq) hv2v
    · exact hmem
  · intro ev0 hev0 k e hk
    rcases List.mem_append.mp hev0 with h1 | h1
    · exact core.snapLe ev0 h1 k e hk
    · have he : ev0 = ⟨v, none, dist, visited ++ [v]⟩ := List.mem_singleton.mp h1
      subst he
      exact ⟨e, hk, DLe.refl e⟩
  · intro ev0 hev0
    rcases List.mem_append.mp hev0 with h1 | h1
    · exact core.snapKeys ev0 h1
    · have he : ev0 = ⟨v, none, dist, visited ++ [v]⟩ := List.mem_singleton.mp h1
      subst he
      exact core.keysEq
  · apply relaxDecr_append core.relaxDecr
    intro u2 nb2 hpath
    exact absurd hpath (by simp)
  · rw [settleSnapsOf_append_settle rfl, core.settleSnapsEq]
    exact (prefixes_append visited v).symm
  · rw [settleNodesOf_append_settle rfl, core.settleNodesEq]
  · intro ev0 hev0
    rcases List.mem_append.mp hev0 with h1 | h1
    · exact List.mem_append.mpr (Or.inl (core.evNode ev0 h1))
    · have he : ev0 = ⟨v, none, dist, visited ++ [v]⟩ := List.mem_singleton.mp h1
      subst he
      exact List.mem_append.mpr (Or.inr (List.mem_singleton_self v))
  · intro ev0 hev0
    rcases List.mem_append.mp hev0 with h1 | h1
    · exact (core.evSetPre ev0 h1).trans (List.prefix_append _ _)
    · have he : ev0 = ⟨v, none, dist, visited ++ [v]⟩ := List.mem_singleton.mp h1
      subst he
      exact List.prefix_refl _
  · exact chain_append_sets core.chainSets
      (fun ev0 h0 => (core.evSetPre ev0 h0).trans (List.prefix_append _ _))
  · intro ev0 hev0
    rcases List.mem_append.mp hev0 with h1 | h1
    · exact core.visFin ev0 h1
    · have he : ev0 = ⟨v, none, dist, visited ++ [v]⟩ := List.mem_singleton.mp h1
      subst he
      intro x hx
      rcases List.mem_append.mp hx with h2 | h2
      · obtain ⟨dx, hdx, _⟩ := core.settledInv x h2
        exact ⟨dx, hdx⟩
      · have hxv : x = v := List.mem_singleton.mp h2
        subst hxv
        exact ⟨d, hdist_v⟩
  · intro ev0 hev0 p hp
    rcases List.mem_append.mp hev0 with h1 | h1
    · exact core.relaxShape ev0 h1 p hp
    · have he : ev0 = ⟨v, none, dist, visited ++ [v]⟩ := List.mem_singleton.mp h1
      subst he
      exact absurd hp (by simp)
  · intro ev1 hev1 hsome ev2 hev2 hpath2 hnode2
    have hev1s : ev1 ∈ steps := by
      rcases List.mem_append.mp hev1 with h1 | h1
      · exact h1
      · exfalso
        have he : ev1 = ⟨v, none, dist, visited ++ [v]⟩ := List.mem_singleton.mp h1
        subst he
        simp at hsome
    rcases List.mem_append.mp hev2 with h1 | h1
    · exact core.relaxSetMatch ev1 hev1s hsome ev2 h1 hpath2 hnode2
    · exfalso
      have he : ev2 = ⟨v, none, dist, visited ++ [v]⟩ := List.mem_singleton.mp h1
      subst he
      have hveq : ev1.visited_node = v := hnode2.symm
      have hmem := core.evNode ev1 hev1s
      rw [hveq] at hmem
      exact hv hmem
  · intro u hu q hq hg
    by_cases huv : u = v
    · subst huv
      exfalso
      rw [hadjOf] at hq
      exact (hg rfl) hq
    · have hu2 : u ∈ visited := by
        rcases List.mem_append.mp hu with h1 | h1
        · exact h1
        · exact absurd (List.mem_singleton.mp h1) huv
      intro ht
      have ht2 : q.1 ∉ visited := fun hh => ht (List.mem_append.mpr (Or.inl hh))
      exact f2 u hu2 q hq ht2
  · exact List.mem_append.mpr (Or.inr (List.mem_singleton_self v))
  · exact List.getLast?_concat visited
  · intro q hq
    rw [hadjOf]
    exact hq

/-- Characterisation of the initial distance table. -/
theorem lookupA_mapInf (l : List (V × List (V × Int))) (k : V) :
    lookupA (l.map (fun p => (p.1, Dist.inf))) k = none ∨
      lookupA (l.map (fun p => (p.1, Dist.inf))) k = some Dist.inf := by
  induction l with
  | nil => exact Or.inl rfl
  | cons p rest ih =>
    obtain ⟨k2, a⟩ := p
    by_cases hk : k2 = k
    · right
      simp [lookupA, hk]
    · simpa [lookupA, hk] using ih

theorem lookupA_initDist {g : Graph} {s k : V} {e : Int}
    (h : lookupA (initDist g s) k = some (Dist.fin e)) : k = s ∧ e = 0 := by
  by_cases hk : k = s
  · subst hk
    unfold initDist at h
    rw [lookupA_updateD_self] at h
    have := Option.some.inj h
    cases this
    exact ⟨rfl, rfl⟩
  · exfalso
    unfold initDist at h
    rw [lookupA_updateD_ne _ _ hk] at h
    rcases lookupA_mapInf g.adj k with h2 | h2
    · rw [h2] at h
      cases h
    · rw [h2] at h
      cases Option.some.inj h

theorem Inv_init {g : Graph} {s : V} (hs : s ∈ g.keys) :
    Inv g s [(0, s)] [] (initDist g s) [] := by
  refine ⟨⟨initDist_keys g s hs, ?_, List.nodup_nil, ?_, ?_, ?_, ?_, ?_, ?_, ?_, ?_,
    ?_, ?_, ?_, rfl, rfl, ?_, ?_, ?_, ?_, ?_, ?_⟩, ?_⟩
  · intro u hu
    cases hu
  · simp
  · intro x hx
    have : x = (0, s) := List.mem_singleton.mp hx
    subst this
    exact hs
  · intro x hx
    have : x = (0, s) := List.mem_singleton.mp hx
    subst this
    exact Walk.nil s
  · intro x hx
    have : x = (0, s) := List.mem_singleton.mp hx
    subst this
    exact ⟨0, lookupA_updateD_self _ _ _, le_refl _⟩
  · intro k e hk
    obtain ⟨rfl, rfl⟩ := lookupA_initDist hk
    exact Walk.nil k
  · intro u hu
    cases hu
  · intro v2 e _ hk
    obtain ⟨rfl, rfl⟩ := lookupA_initDist hk
    exact List.mem_singleton_self _
  · exact lookupA_updateD_self _ _ _
  · intro ev hev
    cases hev
  · intro ev hev
    cases hev
  · intro i j hi hj _ u nb _
    cases hi
  · intro ev hev
    cases hev
  · intro ev hev
    cases hev
  · simp
  · intro ev hev
    cases hev
  · intro ev hev
    cases hev
  · intro ev hev
    cases hev
  · intro u hu
    cases hu

/-- The master run theorem: from any invariant state with enough fuel, the
loop terminates successfully in a state that still satisfies the invariant
with an empty frontier, having only appended to the log and to the visited
list. -/
theorem loopF_master {g : Graph} {s : V} (hwf : WFG g) (hnn : NonNegG g) :
    ∀ (fuel : Nat) (pq : PQ) (visited : List V) (dist : DT) (steps : List Event),
      loopMeasure g pq visited < fuel → Inv g s pq visited dist steps →
      ∃ dF sF visitedF,
        loopF fuel g pq visited dist steps = Except.ok (dF, sF) ∧
        Inv g s [] visitedF dF sF ∧ steps <+: sF ∧ visited <+: visitedF := by
  intro fuel
  induction fuel with
  | zero =>
    intro pq visited dist steps hm _
    exact absurd hm (by omega)
  | succ n ih =>
    intro pq visited dist steps hm hinv
    match pq with
    | [] =>
      exact ⟨dist, steps, visited, by rw [loopF], hinv, List.prefix_refl _,
        List.prefix_refl _⟩
    | (d, v) :: rest =>
      rw [loopF]
      by_cases hv : v ∈ visited
      · rw [if_pos hv]
        apply ih rest visited dist steps _ (Inv_discard hinv hv)
        unfold loopMeasure at hm ⊢
        simp only [List.length_cons] at hm
        omega
      · rw [if_neg hv]
        have hvk : v ∈ g.keys := hinv.1.pqKeys (d, v) (List.mem_cons_self _ _)
        obtain ⟨adj, hfind⟩ := @lookupA_isSome_of_mem (List (V × Int)) g.adj v hvk
        have hfind2 : g.find v = some adj := hfind
        simp only [hfind2]
        have hinvR := Inv_settle_pre hwf hnn hinv hv hfind2
        obtain ⟨dist', pq', steps', hok, houtR, hlen⟩ := relaxAll_inv hwf hnn hinvR
        simp only [hok]
        have hgrow := relaxAll_steps_grow hok
        have hmeas : loopMeasure g pq' (visited ++ [v]) < n := by
          have hws := unvisitedWork_settle hwf.1 hv hfind2
          unfold loopMeasure at hm ⊢
          simp only [List.length_cons] at hm
          omega
        obtain ⟨dF, sF, visitedF, hloop, hinvF, hpre, hvpre⟩ :=
          ih pq' (visited ++ [v]) dist' steps' hmeas (Inv_of_InvR houtR)
        refine ⟨dF, sF, visitedF, hloop, hinvF, ?_, ?_⟩
        · exact ((List.prefix_append steps _).trans hgrow).trans hpre
        · exact (List.prefix_append visited _).trans hvpre

/-- Every valid run reaches a successful final state satisfying the exit
invariant. -/
theorem dijkstra_master {g : Graph} {s : V} (hwf : WFG g) (hnn : NonNegG g)
    (hs : s ∈ g.keys) :
    ∃ dF sF visitedF,
      dijkstra_with_steps g s = Except.ok (dF, sF) ∧ Inv g s [] visitedF dF sF := by
  obtain ⟨dF, sF, visitedF, hloop, hinvF, _, _⟩ :=
    loopF_master hwf hnn (initFuel g) [(0, s)] [] (initDist g s) []
      (by unfold loopMeasure initFuel; simp) (Inv_init hs)
  exact ⟨dF, sF, visitedF, hloop, hinvF⟩

/-- At exit the visited list is exactly the set of reachable vertices. -/
theorem exit_reachable {g : Graph} {s : V} {visitedF : List V} {dF : DT}
    {sF : List Event} (hnn : NonNegG g) (hinv : Inv g s [] visitedF dF sF) :
    ∀ t, t ∈ visitedF ↔ Reachable g s t := by
  intro t
  constructor
  · intro ht
    obtain ⟨dt, _, hshort⟩ := hinv.1.settledInv t ht
    exact ⟨dt, hshort.1⟩
  · intro ⟨c, hw⟩
    by_contra ht
    obtain ⟨x, hx, _⟩ := cover hinv hnn hw ht
    cases hx

/-- At exit the distance table is the shortest-path table: true distance for
reachable vertices, the infinite sentinel for unreachable ones. -/
theorem exit_dist {g : Graph} {s : V} {visitedF : List V} {dF : DT}
    {sF : List Event} (hnn : NonNegG g) (hinv : Inv g s [] visitedF dF sF) :
    ∀ t ∈ g.keys,
      (Reachable g s t →
        ∃ dt, lookupA dF t = some (Dist.fin dt) ∧ IsShortest g s t dt) ∧
      (¬ Reachable g s t → lookupA dF t = some Dist.inf) := by
  intro t htk
  constructor
  · intro hr
    have ht : t ∈ visitedF := (exit_reachable hnn hinv t).mpr hr
    obtain ⟨dt, h1, h2⟩ := hinv.1.settledInv t ht
    exact ⟨dt, h1, h2⟩
  · intro hnr
    obtain ⟨e, he⟩ := @lookupA_isSome_of_mem Dist dF t (hinv.1.keysEq.symm ▸ htk)
    cases e with
    | fin e0 => exact absurd ⟨e0, hinv.1.finWalk t e0 he⟩ hnr
    | inf => exact he

theorem prefixes_get_length (l : List V) (i : Nat) (hi : i < (prefixes l).length) :
    ((prefixes l).get ⟨i, hi⟩).length = i + 1 := by
  rw [List.get_eq_getElem, prefixes_getElem]
  rw [List.length_take]
  have h2 : i < l.length := by rw [prefixes_length] at hi; exact hi
  show min (i + 1) l.length = i + 1
  exact Nat.min_eq_left (by omega)

theorem prefixes_getLast (l : List V) (h : l ≠ []) (h2 : prefixes l ≠ []) :
    (prefixes l).getLast h2 = l := by
  rw [List.getLast_eq_getElem, prefixes_getElem]
  rw [prefixes_length]
  have h3 : 0 < l.length := List.length_pos.mpr h
  have h4 : l.length - 1 + 1 = l.length := by omega
  rw [h4, List.take_length]

/-! ### The four run-level claims -/

/-- Claim C1.  On a well-formed graph with non-negative weights and a start
vertex in the key set, `dijkstra_with_steps` succeeds and its distance table
is the true single-source shortest-path table: for every reachable vertex the
recorded value is attained by a walk and minimal among all walk costs, and
every unreachable vertex keeps the infinite sentinel. -/
theorem c1_shortest_path_correct (g : Graph) (s : V) (hwf : WFG g)
    (hnn : NonNegG g) (hs : s ∈ g.keys) :
    ∃ dF sF, dijkstra_with_steps g s = Except.ok (dF, sF) ∧
      ∀ t ∈ g.keys,
        (Reachable g s t →
          ∃ dt, lookupA dF t = some (Dist.fin dt) ∧ IsShortest g s t dt) ∧
        (¬ Reachable g s t → lookupA dF t = some Dist.inf) := by
  obtain ⟨dF, sF, visitedF, hok, hinv⟩ := dijkstra_master hwf hnn hs
  exact ⟨dF, sF, hok, exit_dist hnn hinv⟩

/-- Witness for C1 on the specification's four-vertex scenario graph. -/
theorem c1_witness :
    WFG specG ∧ NonNegG specG ∧ (0 : V) ∈ specG.keys ∧
    (∃ dF sF, dijkstra_with_steps specG 0 = Except.ok (dF, sF) ∧
      ∀ t ∈ specG.keys,
        (Reachable specG 0 t →
          ∃ dt, lookupA dF t = some (Dist.fin dt) ∧ IsShortest specG 0 t dt) ∧
        (¬ Reachable specG 0 t → lookupA dF t = some Dist.inf)) :=
  ⟨by decide, by decide, by decide,
   c1_shortest_path_correct specG 0 (by decide) (by decide) (by decide)⟩

/-- Claim C10.  On every valid run, each event's visited-set snapshot only
contains vertices that the same event's distance snapshot maps to a finite
value. -/
theorem c10_visited_finite (g : Graph) (s : V) (hwf : WFG g)
    (hnn : NonNegG g) (hs : s ∈ g.keys) :
    ∃ dF sF, dijkstra_with_steps g s = Except.ok (dF, sF) ∧
      ∀ ev ∈ sF, ∀ x ∈ ev.visited_nodes_set,
        ∃ n, lookupA ev.distances x = some (Dist.fin n) := by
  obtain ⟨dF, sF, visitedF, hok, hinv⟩ := dijkstra_master hwf hnn hs
  exact ⟨dF, sF, hok, hinv.1.visFin⟩

/-- Witness for C10. -/
theorem c10_witness :
    WFG specG ∧ NonNegG specG ∧ (0 : V) ∈ specG.keys ∧
    (∃ dF sF, dijkstra_with_steps specG 0 = Except.ok (dF, sF) ∧
      ∀ ev ∈ sF, ∀ x ∈ ev.visited_nodes_set,
        ∃ n, lookupA ev.distances x = some (Dist.fin n)) :=
  ⟨by decide, by decide, by decide,
   c10_visited_finite specG 0 (by decide) (by decide) (by decide)⟩

/-- Claim C5.  On every valid run: (a) each relaxation event's distance
snapshot is strictly below every earlier event's snapshot at the relaxed
vertex; (b) each relaxation event's visited-set snapshot equals the snapshot
of the settlement event of its source vertex. -/
theorem c5_relaxation_events (g : Graph) (s : V) (hwf : WFG g)
    (hnn : NonNegG g) (hs : s ∈ g.keys) :
    ∃ dF sF, dijkstra_with_steps g s = Except.ok (dF, sF) ∧
      (∀ i j (hi : i < sF.length) (hj : j < sF.length), i < j →
        ∀ u nb, (sF.get ⟨j, hj⟩).visited_path = some (u, nb) →
          ∃ ej ei, lookupA (sF.get ⟨j, hj⟩).distances nb = some ej ∧
            lookupA (sF.get ⟨i, hi⟩).distances nb = some ei ∧ DLt ej ei) ∧
      (∀ ev ∈ sF, ∀ u nb, ev.visited_path = some (u, nb) →
        ∀ ev2 ∈ sF, ev2.visited_path = none → ev2.visited_node = u →
          ev2.visited_nodes_set = ev.visited_nodes_set) := by
  obtain ⟨dF, sF, visitedF, hok, hinv⟩ := dijkstra_master hwf hnn hs
  refine ⟨dF, sF, hok, hinv.1.relaxDecr, ?_⟩
  intro ev hev u nb hpath ev2 hev2 hp2 hn2
  have hu : u = ev.visited_node := hinv.1.relaxShape ev hev (u, nb) hpath
  refine hinv.1.relaxSetMatch ev hev ?_ ev2 hev2 hp2 ?_
  · rw [hpath]
    rfl
  · rw [hn2]
    exact hu

/-- Witness for C5. -/
theorem c5_witness :
    WFG specG ∧ NonNegG specG ∧ (0 : V) ∈ specG.keys ∧
    (∃ dF sF, dijkstra_with_steps specG 0 = Except.ok (dF, sF) ∧
      (∀ i j (hi : i < sF.length) (hj : j < sF.length), i < j →
        ∀ u nb, (sF.get ⟨j, hj⟩).visited_path = some (u, nb) →
          ∃ ej ei, lookupA (sF.get ⟨j, hj⟩).distances nb = some ej ∧
            lookupA (sF.get ⟨i, hi⟩).distances nb = some ei ∧ DLt ej ei) ∧
      (∀ ev ∈ sF, ∀ u nb, ev.visited_path = some (u, nb) →
        ∀ ev2 ∈ sF, ev2.visited_path = none → ev2.visited_node = u →
          ev2.visited_nodes_set = ev.visited_nodes_set)) :=
  ⟨by decide, by decide, by decide,
   c5_relaxation_events specG 0 (by decide) (by decide) (by decide)⟩

/-- Claim C6.  On every valid run: the `i`-th settlement event's visited
snapshot has exactly `i + 1` distinct vertices (so it grows by exactly one
per settlement, starting at one), no event ever loses a vertex (snapshots
grow monotonically along the whole log), and the last settlement snapshot is
exactly the set of vertices reachable from the start. -/
theorem c6_visited_growth (g : Graph) (s : V) (hwf : WFG g)
    (hnn : NonNegG g) (hs : s ∈ g.keys) :
    ∃ dF sF, dijkstra_with_steps g s = Except.ok (dF, sF) ∧
      (∀ i (hi : i < (settleSnapsOf sF).length),
        ((settleSnapsOf sF).get ⟨i, hi⟩).length = i + 1) ∧
      (∀ l ∈ settleSnapsOf sF, l.Nodup) ∧
      (∀ i j (hi : i < sF.length) (hj : j < sF.length), i ≤ j →
        (sF.get ⟨i, hi⟩).visited_nodes_set ⊆ (sF.get ⟨j, hj⟩).visited_nodes_set) ∧
      (∃ hne : settleSnapsOf sF ≠ [],
        ∀ t, t ∈ (settleSnapsOf sF).getLast hne ↔ Reachable g s t) := by
  obtain ⟨dF, sF, visitedF, hok, hinv⟩ := dijkstra_master hwf hnn hs
  have hsnaps := hinv.1.settleSnapsEq
  refine ⟨dF, sF, hok, ?_, ?_, ?_, ?_⟩
  · intro i hi
    have hi2 : i < (prefixes visitedF).length := by rw [← hsnaps]; exact hi
    have hgeq : (settleSnapsOf sF).get ⟨i, hi⟩ = (prefixes visitedF).get ⟨i, hi2⟩ := by
      rw [List.get_eq_getElem, List.get_eq_getElem]
      exact List.getElem_of_eq hsnaps hi
    rw [hgeq]
    exact prefixes_get_length visitedF i hi2
  · intro l hl
    rw [hsnaps] at hl
    unfold prefixes at hl
    obtain ⟨i, _, rfl⟩ := List.mem_map.mp hl
    exact hinv.1.visNodup.sublist (List.take_sublist _ _)
  · haveI : IsTrans (List V) (fun a b : List V => a <+: b) :=
      ⟨fun _ _ _ h1 h2 => h1.trans h2⟩
    have hpw : List.Pairwise (fun a b : List V => a <+: b)
        (sF.map Event.visited_nodes_set) :=
      List.chain'_iff_pairwise.mp hinv.1.chainSets
    intro i j hi hj hij
    rcases Nat.lt_or_ge i j with hlt | hge
    · have hi3 : i < (sF.map Event.visited_nodes_set).length := by simpa using hi
      have hj3 : j < (sF.map Event.visited_nodes_set).length := by simpa using hj
      have hp := (List.pairwise_iff_get.mp hpw) ⟨i, hi3⟩ ⟨j, hj3⟩ hlt
      have hgi : (sF.map Event.visited_nodes_set).get ⟨i, hi3⟩ =
          (sF.get ⟨i, hi⟩).visited_nodes_set := by
        rw [List.get_eq_getElem, List.get_eq_getElem, List.getElem_map]
      have hgj : (sF.map Event.visited_nodes_set).get ⟨j, hj3⟩ =
          (sF.get ⟨j, hj⟩).visited_nodes_set := by
        rw [List.get_eq_getElem, List.get_eq_getElem, List.getElem_map]
      rw [hgi, hgj] at hp
      exact hp.subset
    · have hij2 : i = j := by omega
      subst hij2
      have : sF.get ⟨i, hi⟩ = sF.get ⟨i, hj⟩ := rfl
      rw [this]
      exact fun x hx => hx
  · have hsv : s ∈ visitedF :=
      (exit_reachable hnn hinv s).mpr ⟨0, Walk.nil s⟩
    have hvne : visitedF ≠ [] := by
      intro h0
      rw [h0] at hsv
      cases hsv
    have hne : settleSnapsOf sF ≠ [] := by
      rw [hsnaps]
      intro h0
      have := congrArg List.length h0
      rw [prefixes_length] at this
      exact hvne (List.length_eq_zero.mp this)
    refine ⟨hne, ?_⟩
    have hgl : (settleSnapsOf sF).getLast hne = visitedF := by
      have hne2 : prefixes visitedF ≠ [] := by rw [← hsnaps]; exact hne
      calc (settleSnapsOf sF).getLast hne
          = (prefixes visitedF).getLast hne2 := by
            congr 1
          _ = visitedF := prefixes_getLast visitedF hvne hne2
    rw [hgl]
    exact exit_reachable hnn hinv

/-- Witness for C6. -/
theorem c6_witness :
    WFG specG ∧ NonNegG specG ∧ (0 : V) ∈ specG.keys ∧
    (∃ dF sF, dijkstra_with_steps specG 0 = Except.ok (dF, sF) ∧
      (∀ i (hi : i < (settleSnapsOf sF).length),
        ((settleSnapsOf sF).get ⟨i, hi⟩).length = i + 1) ∧
      (∀ l ∈ settleSnapsOf sF, l.Nodup) ∧
      (∀ i j (hi : i < sF.length) (hj : j < sF.length), i ≤ j →
        (sF.get ⟨i, hi⟩).visited_nodes_set ⊆ (sF.get ⟨j, hj⟩).visited_nodes_set) ∧
      (∃ hne : settleSnapsOf sF ≠ [],
        ∀ t, t ∈ (settleSnapsOf sF).getLast hne ↔ Reachable specG 0 t)) :=
  ⟨by decide, by decide, by decide,
   c6_visited_growth specG 0 (by decide) (by decide) (by decide)⟩

end DijkstraTrace
